import Mathlib

/-!
Verification of the glmproxy protocol gateway.

This file embeds the core components of the gateway in Lean:
the incremental reasoning-tag splitter, the streaming reconstruction
engine, the tool-execution loop, the stop-reason mapping, the
auto-compact context recovery wrapper and the media/endpoint routing.
Each definition is a direct translation of the corresponding
JavaScript source; theorems below settle the specification's claims.
-/

namespace GlmProxy

/-! ## Reasoning Tag Splitter (src/config.js, class ReasoningTagParser) -/

def openTag : List Char := "<reasoning_content>".toList
def closeTag : List Char := "</reasoning_content>".toList

inductive SegType
  | thinking
  | text
deriving DecidableEq, Repr

structure Segment where
  type : SegType
  content : List Char
deriving DecidableEq, Repr

/-- The splitter's persistent state: `buffer` and `inReasoning`
    (fields of the `ReasoningTagParser` class). -/
structure SplitterState where
  buffer : List Char
  inReasoning : Bool
deriving DecidableEq, Repr

def initSplitter : SplitterState := ⟨[], false⟩

/-- JS `buffer.indexOf(tag)`: index of the first occurrence of `tag`
    as a contiguous substring, `none` if absent. -/
def firstIdx (buf tag : List Char) : Option Nat :=
  if tag.isPrefixOf buf then some 0
  else
    match buf with
    | [] => none
    | _ :: rest => (firstIdx rest tag).map (· + 1)

/-- `findPartialTag` helper: scans `len` from `bound` down to 1 and returns
    the first (largest) `len` such that the final `len` characters of `text`
    equal the first `len` characters of `tag`. -/
def findPartialAux (text tag : List Char) : Nat → Nat
  | 0 => 0
  | len + 1 =>
    if text.drop (text.length - (len + 1)) = tag.take (len + 1) then len + 1
    else findPartialAux text tag len

/-- JS `findPartialTag(text, tag)`: length of the longest suffix of `text`
    that is a proper prefix of `tag` (capped at `tag.length - 1`). -/
def findPartialTag (text tag : List Char) : Nat :=
  findPartialAux text tag (min text.length (tag.length - 1))

/-- Tag searched for in the current mode (close tag while inside reasoning,
    open tag otherwise). -/
def tagFor : Bool → List Char
  | true => closeTag
  | false => openTag

/-- Segment type emitted in the current mode. -/
def typeFor : Bool → SegType
  | true => SegType.thinking
  | false => SegType.text

/-- One guarded emission: JS pushes a segment only when the content is a
    non-empty string. -/
def emitIf (ty : SegType) (content : List Char) : List Segment :=
  if content.isEmpty then [] else [⟨ty, content⟩]

/-- The `while (this.buffer.length > 0)` loop of `processChunk`, written with
    explicit fuel so that it is structurally recursive (every complete tag
    consumed removes at least one character, so `buffer.length` fuel
    suffices).  Returns the emitted segments and the final splitter state. -/
def plAux (tag : Bool → List Char) : Nat → List Char → Bool → List Segment × SplitterState
  | 0, buffer, m => ([], ⟨buffer, m⟩)
  | fuel + 1, buffer, m =>
    if buffer.isEmpty then ([], ⟨[], m⟩)
    else
      match firstIdx buffer (tag m) with
      | some idx =>
        let content := buffer.take idx
        let r := plAux tag fuel (buffer.drop (idx + (tag m).length)) (!m)
        (emitIf (typeFor m) content ++ r.1, r.2)
      | none =>
        let p := findPartialTag buffer (tag m)
        if 0 < p then
          (emitIf (typeFor m) (buffer.take (buffer.length - p)),
            ⟨buffer.drop (buffer.length - p), m⟩)
        else
          ([⟨typeFor m, buffer⟩], ⟨[], m⟩)

/-- The splitter's processing loop on a buffer in mode `m`. -/
def processLoop (buffer : List Char) (m : Bool) : List Segment × SplitterState :=
  plAux tagFor buffer.length buffer m

/-- JS `processChunk(text)`: appends the chunk to the buffer and runs the
    extraction loop. -/
def processChunk (s : SplitterState) (text : List Char) : List Segment × SplitterState :=
  processLoop (s.buffer ++ text) s.inReasoning

/-- JS `flush()`: emits the remaining buffer as a segment of the current
    mode (a held-back partial tag becomes literal content). -/
def flushSeg (s : SplitterState) : List Segment :=
  if s.buffer.isEmpty then [] else [⟨if s.inReasoning then SegType.thinking else SegType.text, s.buffer⟩]

/-- Feed a list of chunks through `processChunk` from a given state,
    concatenating all emitted segments. -/
def runFrom (st : SplitterState) : List (List Char) → List Segment × SplitterState
  | [] => ([], st)
  | c :: cs =>
    let r := processChunk st c
    let rest := runFrom r.2 cs
    (r.1 ++ rest.1, rest.2)

/-- A full splitter run: chunks fed in order to `processChunk`, then one
    terminal `flush`. -/
def runSplitter (chunks : List (List Char)) : List Segment :=
  let r := runFrom initSplitter chunks
  r.1 ++ flushSeg r.2

/-- Denotation of a segment list: every character paired with the type of
    the segment that carried it.  Two segment lists that differ only in how
    characters are grouped into segments (or by empty segments) denote the
    same list. -/
def denote (segs : List Segment) : List (SegType × Char) :=
  segs.flatMap (fun s => s.content.map (fun c => (s.type, c)))

end GlmProxy
namespace GlmProxy

theorem isP_iff {l₁ l₂ : List Char} : l₁.isPrefixOf l₂ = true ↔ l₁ <+: l₂ :=
  List.isPrefixOf_iff_prefix

theorem firstIdx_nil {tag : List Char} (h : tag ≠ []) : firstIdx [] tag = none := by
  rw [firstIdx.eq_def]
  have : ¬ tag.isPrefixOf [] := by
    intro hb
    exact h (List.prefix_nil.mp (isP_iff.mp hb))
  rw [if_neg this]

theorem firstIdx_pre {buf tag : List Char} (h : tag <+: buf) : firstIdx buf tag = some 0 := by
  rw [firstIdx.eq_def, if_pos (isP_iff.mpr h)]

theorem firstIdx_not_pre {c : Char} {rest tag : List Char} (h : ¬ tag <+: (c :: rest)) :
    firstIdx (c :: rest) tag = (firstIdx rest tag).map (· + 1) := by
  rw [firstIdx.eq_def, if_neg (fun hb => h (isP_iff.mp hb))]

theorem firstIdx_none_iff {tag : List Char} (htag : tag ≠ []) : ∀ {buf : List Char},
    firstIdx buf tag = none ↔ ∀ j, ¬ tag <+: buf.drop j := by
  intro buf
  induction buf with
  | nil =>
    rw [firstIdx_nil htag]
    simp only [List.drop_nil, true_iff]
    intro j hj
    exact htag (List.prefix_nil.mp hj)
  | cons c rest ih =>
    by_cases hp : tag <+: (c :: rest)
    · rw [firstIdx_pre hp]
      constructor
      · intro hc; exact absurd hc (by simp)
      · intro hall; exact absurd hp (by simpa using hall 0)
    · rw [firstIdx_not_pre hp]
      constructor
      · intro hc j
        match j with
        | 0 => simpa using hp
        | j + 1 =>
          simp only [List.drop_succ_cons]
          simp only [Option.map_eq_none'] at hc
          exact (ih.mp hc) j
      · intro hall
        simp only [Option.map_eq_none']
        exact ih.mpr (fun j => by simpa using hall (j + 1))

theorem firstIdx_sound {tag : List Char} : ∀ {buf : List Char} {i : Nat},
    firstIdx buf tag = some i → tag <+: buf.drop i := by
  intro buf
  induction buf with
  | nil =>
    intro i h
    rw [firstIdx.eq_def] at h
    by_cases hp : tag.isPrefixOf []
    · rw [if_pos hp] at h
      cases h
      simpa using isP_iff.mp hp
    · rw [if_neg hp] at h; cases h
  | cons c rest ih =>
    intro i h
    by_cases hp : tag <+: (c :: rest)
    · rw [firstIdx_pre hp] at h
      cases h
      simpa using hp
    · rw [firstIdx_not_pre hp] at h
      cases hfi : firstIdx rest tag with
      | none => rw [hfi] at h; cases h
      | some i' =>
        rw [hfi] at h
        simp only [Option.map_some'] at h
        cases h
        simpa using ih hfi

theorem firstIdx_min {tag : List Char} : ∀ {buf : List Char} {i : Nat},
    firstIdx buf tag = some i → ∀ j, j < i → ¬ tag <+: buf.drop j := by
  intro buf
  induction buf with
  | nil =>
    intro i h j hj
    rw [firstIdx.eq_def] at h
    by_cases hp : tag.isPrefixOf []
    · rw [if_pos hp] at h; cases h; omega
    · rw [if_neg hp] at h; cases h
  | cons c rest ih =>
    intro i h j hj
    by_cases hp : tag <+: (c :: rest)
    · rw [firstIdx_pre hp] at h; cases h; omega
    · rw [firstIdx_not_pre hp] at h
      cases hfi : firstIdx rest tag with
      | none => rw [hfi] at h; cases h
      | some i' =>
        rw [hfi] at h
        simp only [Option.map_some'] at h
        cases h
        match j with
        | 0 => simpa using hp
        | j + 1 =>
          simp only [List.drop_succ_cons]
          exact ih hfi j (by omega)

theorem firstIdx_of {tag : List Char} : ∀ {buf : List Char} {i : Nat},
    tag <+: buf.drop i → (∀ j, j < i → ¬ tag <+: buf.drop j) → firstIdx buf tag = some i := by
  intro buf
  induction buf with
  | nil =>
    intro i hocc hmin
    simp only [List.drop_nil] at hocc
    have : i = 0 := by
      by_contra hne
      exact hmin 0 (by omega) (by simpa using hocc)
    subst this
    exact firstIdx_pre (by simpa using hocc)
  | cons c rest ih =>
    intro i hocc hmin
    match i with
    | 0 => exact firstIdx_pre (by simpa using hocc)
    | i + 1 =>
      have hp : ¬ tag <+: (c :: rest) := by simpa using hmin 0 (by omega)
      rw [firstIdx_not_pre hp]
      rw [ih (by simpa using hocc) (fun j hj => by simpa using hmin (j+1) (by omega))]
      rfl

end GlmProxy
namespace GlmProxy

theorem findPartialAux_le {text tag : List Char} : ∀ {bound : Nat},
    findPartialAux text tag bound ≤ bound := by
  intro bound
  induction bound with
  | zero => simp [findPartialAux]
  | succ n ih =>
    rw [findPartialAux]
    split
    · exact le_refl _
    · exact le_trans ih (by omega)

theorem findPartialAux_sound {text tag : List Char} : ∀ {bound : Nat},
    0 < findPartialAux text tag bound →
    text.drop (text.length - findPartialAux text tag bound) =
      tag.take (findPartialAux text tag bound) := by
  intro bound
  induction bound with
  | zero => intro h; simp [findPartialAux] at h
  | succ n ih =>
    intro h
    by_cases hcond : text.drop (text.length - (n + 1)) = tag.take (n + 1)
    · rw [findPartialAux, if_pos hcond] at h ⊢
      exact hcond
    · rw [findPartialAux, if_neg hcond] at h ⊢
      exact ih h

theorem findPartialAux_max {text tag : List Char} : ∀ {bound len : Nat},
    len ≤ bound → 0 < len →
    text.drop (text.length - len) = tag.take len →
    len ≤ findPartialAux text tag bound := by
  intro bound
  induction bound with
  | zero => intro len hle h0 _; omega
  | succ n ih =>
    intro len hle h0 heq
    rw [findPartialAux]
    split
    · omega
    · rename_i hmatch
      have hne : len ≠ n + 1 := fun hc => hmatch (hc ▸ heq)
      exact ih (by omega) h0 heq

theorem findPartialTag_le_len {text tag : List Char} :
    findPartialTag text tag ≤ text.length := by
  exact le_trans findPartialAux_le (by omega)

theorem findPartialTag_lt_tag {text tag : List Char} (h : tag ≠ []) :
    findPartialTag text tag < tag.length := by
  have h1 : findPartialTag text tag ≤ min text.length (tag.length - 1) := findPartialAux_le
  have h2 : 0 < tag.length := List.length_pos.mpr h
  omega

theorem findPartialTag_sound {text tag : List Char} (h : 0 < findPartialTag text tag) :
    text.drop (text.length - findPartialTag text tag) = tag.take (findPartialTag text tag) :=
  findPartialAux_sound h

theorem findPartialTag_max {text tag : List Char} {len : Nat}
    (h1 : len ≤ text.length) (h2 : len < tag.length) (h0 : 0 < len)
    (heq : text.drop (text.length - len) = tag.take len) :
    len ≤ findPartialTag text tag :=
  findPartialAux_max (by omega) h0 heq

end GlmProxy
namespace GlmProxy

theorem prefix_of_append_left {tag x y : List Char} (h : tag <+: x ++ y)
    (hlen : tag.length ≤ x.length) : tag <+: x := by
  have := List.prefix_iff_eq_take.mp h
  rw [List.take_append_of_le_length hlen] at this
  exact this ▸ List.take_prefix _ _

theorem prefix_of_append_long {tag x y : List Char} (h : tag <+: x ++ y)
    (hlen : x.length ≤ tag.length) : x = tag.take x.length := by
  obtain ⟨r, hr⟩ := h
  have : x = ((x ++ y).take x.length) := by simp
  rw [← hr, List.take_append_of_le_length hlen] at this
  exact this

theorem firstIdx_append_some {b t tag : List Char} {i : Nat} (htag : tag ≠ [])
    (h : firstIdx b tag = some i) : firstIdx (b ++ t) tag = some i := by
  have hocc := firstIdx_sound h
  have hlen : tag.length ≤ b.length - i := by
    have := hocc.length_le
    simpa using this
  have hi : i ≤ b.length := by
    have h0 : 0 < tag.length := List.length_pos.mpr htag
    omega
  apply firstIdx_of
  · rw [List.drop_append_of_le_length hi]
    exact hocc.trans (List.prefix_append _ _)
  · intro j hj hocc'
    rw [List.drop_append_of_le_length (by omega)] at hocc'
    by_cases hc : tag.length ≤ (b.drop j).length
    · exact firstIdx_min h j hj (prefix_of_append_left hocc' hc)
    · simp only [List.length_drop] at hc
      omega

theorem firstIdx_shift {tag : List Char} : ∀ {k : Nat} {xs : List Char},
    k ≤ xs.length → (∀ j, j < k → ¬ tag <+: xs.drop j) →
    firstIdx xs tag = (firstIdx (xs.drop k) tag).map (· + k) := by
  intro k
  induction k with
  | zero =>
    intro xs _ _
    simp only [List.drop_zero]
    cases firstIdx xs tag <;> simp
  | succ k ih =>
    intro xs hk hmin
    match xs with
    | [] => simp at hk
    | c :: rest =>
      have hp : ¬ tag <+: (c :: rest) := by simpa using hmin 0 (by omega)
      rw [firstIdx_not_pre hp]
      rw [@ih rest (by simpa using hk) (fun j hj => by simpa using hmin (j+1) (by omega))]
      simp only [List.drop_succ_cons]
      cases firstIdx (rest.drop k) tag <;> simp
      omega

theorem firstIdx_append_none {b t tag : List Char} (htag : tag ≠ [])
    (hnone : firstIdx b tag = none) :
    firstIdx (b ++ t) tag =
      (firstIdx (b.drop (b.length - findPartialTag b tag) ++ t) tag).map
        (· + (b.length - findPartialTag b tag)) := by
  set p := findPartialTag b tag with hp
  have hple : p ≤ b.length := findPartialTag_le_len
  have hnocc := (firstIdx_none_iff htag).mp hnone
  have hk : b.length - p ≤ (b ++ t).length := by simp; omega
  have hshift := @firstIdx_shift tag (b.length - findPartialTag b tag) (b ++ t) hk (fun j hj hocc => ?_)
  · rw [hshift, List.drop_append_of_le_length (by omega)]
  · rw [List.drop_append_of_le_length (by omega)] at hocc
    by_cases hc : tag.length ≤ (b.drop j).length
    · exact hnocc j (prefix_of_append_left hocc hc)
    · simp only [List.length_drop] at hc
      have hxeq := prefix_of_append_long hocc (by simp; omega)
      simp only [List.length_drop] at hxeq
      have hmax : b.length - j ≤ p := by
        apply findPartialTag_max (by omega) (by omega) (by omega)
        have : b.length - (b.length - j) = j := by omega
        rw [this]
        exact hxeq
      omega

end GlmProxy
namespace GlmProxy

theorem drop_drop' (l : List Char) (a b : Nat) : (l.drop a).drop b = l.drop (a + b) := by
  rw [List.drop_drop]

theorem suffix_eq_of_long {b t : List Char} {len : Nat} (hge : t.length ≤ len) :
    (b ++ t).drop ((b ++ t).length - len) = b.drop (b.length - (len - t.length)) ++ t := by
  rw [List.drop_append_of_le_length (by simp; omega)]
  congr 1
  congr 1
  simp
  omega

theorem findPartialTag_append {b t tag : List Char} (htag : tag ≠ []) :
    findPartialTag (b ++ t) tag =
      findPartialTag (b.drop (b.length - findPartialTag b tag) ++ t) tag := by
  set p := findPartialTag b tag with hpdef
  set k := b.length - p with hkdef
  have hple : p ≤ b.length := findPartialTag_le_len
  have hh : b.drop k ++ t = (b ++ t).drop k := (List.drop_append_of_le_length (by omega)).symm
  have hhlen : (b.drop k ++ t).length = p + t.length := by simp; omega
  -- suffixes of length ≤ p + t.length coincide between b ++ t and (b.drop k) ++ t
  have hsfx : ∀ len, len ≤ p + t.length →
      (b ++ t).drop ((b ++ t).length - len) = (b.drop k ++ t).drop ((b.drop k ++ t).length - len) := by
    intro len hlen
    rw [hh, drop_drop']
    congr 1
    simp
    omega
  apply le_antisymm
  · -- findPartialTag (b ++ t) ≤ findPartialTag (b.drop k ++ t)
    set q := findPartialTag (b ++ t) tag with hqdef
    by_cases hq : 0 < q
    · have hsound := @findPartialTag_sound (b ++ t) tag hq
      have hqlt : q < tag.length := findPartialTag_lt_tag htag
      have hqle : q ≤ (b ++ t).length := findPartialTag_le_len
      by_cases hcase : q ≤ p + t.length
      · -- match transfers to the short list
        apply findPartialTag_max (by omega) hqlt hq
        rw [← hsfx q hcase]
        exact hsound
      · -- impossible: would give a longer partial match of b than p
        exfalso
        have hbt : (b ++ t).length = b.length + t.length := by simp
        have hgt : t.length ≤ q := by omega
        have hsplit := suffix_eq_of_long (b := b) (t := t) hgt
        rw [hsplit] at hsound
        set len' := q - t.length with hlen'
        have hlenb : len' ≤ b.length := by omega
        have hxlen : (b.drop (b.length - len')).length = len' := by
          simp only [List.length_drop]
          omega
        have hxeq : b.drop (b.length - len') = tag.take len' := by
          have hthis : b.drop (b.length - len') = (tag.take q).take len' := by
            have h1 : b.drop (b.length - len') = (b.drop (b.length - len') ++ t).take len' := by
              rw [List.take_append_of_le_length (le_of_eq hxlen.symm)]
              rw [List.take_of_length_le (le_of_eq hxlen)]
            rw [h1, hsound]
          rwa [List.take_take, min_eq_left (by omega)] at hthis
        have : len' ≤ p := findPartialTag_max hlenb (by omega) (by omega) hxeq
        omega
    · omega
  · -- findPartialTag (b.drop k ++ t) ≤ findPartialTag (b ++ t)
    set q := findPartialTag (b.drop k ++ t) tag with hqdef
    by_cases hq : 0 < q
    · have hsound := @findPartialTag_sound (b.drop k ++ t) tag hq
      have hqlt : q < tag.length := findPartialTag_lt_tag htag
      have hqle : q ≤ (b.drop k ++ t).length := findPartialTag_le_len
      rw [hhlen] at hqle
      have hbt : (b ++ t).length = b.length + t.length := by simp
      apply findPartialTag_max (by omega) hqlt hq
      rw [hsfx q (by omega)]
      exact hsound
    · omega

end GlmProxy
namespace GlmProxy

theorem tagFor_ne (m : Bool) : tagFor m ≠ [] := by cases m <;> decide

theorem openTag_len : openTag.length = 19 := by decide
theorem closeTag_len : closeTag.length = 20 := by decide

theorem plAux_zero {tag : Bool → List Char} {b : List Char} {m : Bool} :
    plAux tag 0 b m = ([], ⟨b, m⟩) := rfl

theorem plAux_nil {tag : Bool → List Char} {m : Bool} : ∀ {f : Nat},
    plAux tag f [] m = ([], ⟨[], m⟩) := by
  intro f
  cases f with
  | zero => rfl
  | succ n => rw [plAux, if_pos (by decide)]

theorem plAux_congr {tag : Bool → List Char} (htag : ∀ m, tag m ≠ []) :
    ∀ {f1 : Nat} {b : List Char} {m : Bool} {f2 : Nat},
    b.length ≤ f1 → b.length ≤ f2 → plAux tag f1 b m = plAux tag f2 b m := by
  intro f1
  induction f1 with
  | zero =>
    intro b m f2 h1 _
    have : b = [] := List.length_eq_zero.mp (by omega)
    subst this
    rw [plAux_nil, plAux_nil]
  | succ n ih =>
    intro b m f2 h1 h2
    match b with
    | [] => rw [plAux_nil, plAux_nil]
    | c :: rest =>
      match f2 with
      | 0 => simp at h2
      | k + 1 =>
        rw [plAux, plAux]
        simp only [List.isEmpty_cons, Bool.false_eq_true, if_false]
        cases hfi : firstIdx (c :: rest) (tag m) with
        | some idx =>
          have hocc := firstIdx_sound hfi
          have htlen : 0 < (tag m).length := List.length_pos.mpr (htag m)
          have hlen : (tag m).length ≤ (c :: rest).length - idx := by
            have := hocc.length_le
            simpa using this
          have hblen : ((c :: rest).drop (idx + (tag m).length)).length ≤ n := by
            simp only [List.length_drop]
            simp only [List.length_cons] at h1 ⊢
            omega
          have hblen2 : ((c :: rest).drop (idx + (tag m).length)).length ≤ k := by
            simp only [List.length_drop]
            simp only [List.length_cons] at h2 ⊢
            omega
          dsimp only
          rw [ih hblen hblen2]
        | none => rfl

theorem processLoop_nil {m : Bool} : processLoop [] m = ([], ⟨[], m⟩) := rfl

theorem processLoop_some {b : List Char} {m : Bool} {i : Nat}
    (h : firstIdx b (tagFor m) = some i) :
    processLoop b m =
      (emitIf (typeFor m) (b.take i) ++ (processLoop (b.drop (i + (tagFor m).length)) (!m)).1,
        (processLoop (b.drop (i + (tagFor m).length)) (!m)).2) := by
  match b with
  | [] => rw [firstIdx_nil (tagFor_ne m)] at h; cases h
  | c :: rest =>
    show plAux tagFor (c :: rest).length (c :: rest) m = _
    rw [List.length_cons, plAux, if_neg (by simp), h]
    dsimp only
    have hsub : ((c :: rest).drop (i + (tagFor m).length)).length ≤ (c :: rest).length - 1 := by
      have hocc := firstIdx_sound h
      have htlen : 0 < (tagFor m).length := List.length_pos.mpr (tagFor_ne m)
      simp only [List.length_drop]
      omega
    have := @plAux_congr tagFor tagFor_ne ((c :: rest).length - 1)
      ((c :: rest).drop (i + (tagFor m).length)) (!m)
      ((c :: rest).drop (i + (tagFor m).length)).length hsub (le_refl _)
    show (_ ++ (plAux tagFor ((c::rest).length - 1 + 1 - 1) _ _).1, (plAux tagFor ((c::rest).length - 1 + 1 - 1) _ _).2) = _
    simp only [List.length_cons, Nat.add_sub_cancel] at this ⊢
    rw [this]
    rfl

theorem processLoop_none {b : List Char} {m : Bool} (hb : b ≠ [])
    (h : firstIdx b (tagFor m) = none) :
    processLoop b m =
      (emitIf (typeFor m) (b.take (b.length - findPartialTag b (tagFor m))),
        ⟨b.drop (b.length - findPartialTag b (tagFor m)), m⟩) := by
  match b with
  | [] => exact absurd rfl hb
  | c :: rest =>
    show plAux tagFor (c :: rest).length (c :: rest) m = _
    rw [List.length_cons, plAux, if_neg (by simp), h]
    dsimp only
    simp only [List.length_cons]
    by_cases hp : 0 < findPartialTag (c :: rest) (tagFor m)
    · rw [if_pos hp]
    · rw [if_neg hp]
      have hp0 : findPartialTag (c :: rest) (tagFor m) = 0 := by omega
      rw [hp0]
      simp [emitIf]
end GlmProxy
namespace GlmProxy

theorem denote_append (a b : List Segment) : denote (a ++ b) = denote a ++ denote b := by
  simp [denote]

theorem denote_emitIf (ty : SegType) (c : List Char) :
    denote (emitIf ty c) = c.map (fun ch => (ty, ch)) := by
  by_cases h : c.isEmpty
  · rw [List.isEmpty_iff] at h; subst h; simp [emitIf, denote]
  · simp [emitIf, h, denote]

theorem take_append_exact {x y : List Char} {n k : Nat} (h : x.length = k) :
    (x ++ y).take (k + n) = x ++ y.take n := by
  subst h; simp [List.take_append]

theorem drop_append_exact {x y : List Char} {n k : Nat} (h : x.length = k) :
    (x ++ y).drop (k + n) = y.drop n := by
  subst h; simp [List.drop_append]

theorem split_at_k (b t : List Char) (k : Nat) :
    b ++ t = b.take k ++ (b.drop k ++ t) := by
  rw [← List.append_assoc, List.take_append_drop]

theorem findPartialTag_nil {tag : List Char} : findPartialTag [] tag = 0 := by
  rw [findPartialTag]
  simp [findPartialAux]

/-- Composition: processing `b ++ t` at once produces (up to segment grouping)
    the same output and the same final state as processing `b` and then
    processing the held-back buffer extended by `t`. -/
theorem processLoop_append_split : ∀ (n : Nat) (b t : List Char) (m : Bool), b.length ≤ n →
    denote (processLoop (b ++ t) m).1 =
      denote (processLoop b m).1 ++
        denote (processLoop ((processLoop b m).2.buffer ++ t) (processLoop b m).2.inReasoning).1 ∧
    (processLoop (b ++ t) m).2 =
      (processLoop ((processLoop b m).2.buffer ++ t) (processLoop b m).2.inReasoning).2 := by
  intro n
  induction n with
  | zero =>
    intro b t m hb
    have : b = [] := List.length_eq_zero.mp (by omega)
    subst this
    rw [processLoop_nil]
    simp [denote]
  | succ n ih =>
    intro b t m hb
    match b with
    | [] =>
      rw [processLoop_nil]
      simp [denote]
    | c :: rest =>
      have hbne : (c :: rest) ≠ [] := by simp
      have htne := tagFor_ne m
      have htpos : 0 < (tagFor m).length := List.length_pos.mpr htne
      cases hfi : firstIdx (c :: rest) (tagFor m) with
      | some i =>
        have hone := processLoop_some (b := c :: rest) (m := m) hfi
        have happ : firstIdx ((c :: rest) ++ t) (tagFor m) = some i :=
          firstIdx_append_some htne hfi
        have htwo := processLoop_some (b := (c :: rest) ++ t) (m := m) happ
        have hocc := firstIdx_sound hfi
        have hil : i + (tagFor m).length ≤ (c :: rest).length := by
          have := hocc.length_le
          simp only [List.length_drop] at this
          omega
        have htake : ((c :: rest) ++ t).take i = (c :: rest).take i :=
          List.take_append_of_le_length (by omega)
        have hdrop : ((c :: rest) ++ t).drop (i + (tagFor m).length) =
            (c :: rest).drop (i + (tagFor m).length) ++ t :=
          List.drop_append_of_le_length hil
        have hblen : ((c :: rest).drop (i + (tagFor m).length)).length ≤ n := by
          simp only [List.length_drop, List.length_cons]
          simp only [List.length_cons] at hb
          omega
        obtain ⟨ih1, ih2⟩ := ih ((c :: rest).drop (i + (tagFor m).length)) t (!m) hblen
        rw [htwo, hone, htake, hdrop]
        dsimp only
        constructor
        · rw [denote_append, denote_append, ih1, List.append_assoc]
        · exact ih2
      | none =>
        have hone := processLoop_none hbne hfi
        have happ := firstIdx_append_none (b := c :: rest) (t := t) htne hfi
        have hpeq := findPartialTag_append (b := c :: rest) (t := t) htne
        have hple : findPartialTag (c :: rest) (tagFor m) ≤ (c :: rest).length :=
          findPartialTag_le_len
        set p := findPartialTag (c :: rest) (tagFor m) with hp
        set k := (c :: rest).length - p with hkdef
        have hktake : ((c :: rest).take k).length = k := by
          simp only [List.length_take]
          omega
        cases hfi2 : firstIdx ((c :: rest).drop k ++ t) (tagFor m) with
        | some i2 =>
          rw [hfi2] at happ
          simp only [Option.map_some'] at happ
          have htwo := processLoop_some (b := (c :: rest) ++ t) (m := m) happ
          have hthree := processLoop_some (b := (c :: rest).drop k ++ t) (m := m) hfi2
          rw [htwo, hone, hthree]
          dsimp only
          have htk : ((c :: rest) ++ t).take (i2 + k) =
              (c :: rest).take k ++ ((c :: rest).drop k ++ t).take i2 := by
            rw [split_at_k (c :: rest) t k, Nat.add_comm i2 k, take_append_exact hktake]
          have hdk : ((c :: rest) ++ t).drop (i2 + k + (tagFor m).length) =
              ((c :: rest).drop k ++ t).drop (i2 + (tagFor m).length) := by
            rw [split_at_k (c :: rest) t k]
            rw [show i2 + k + (tagFor m).length = k + (i2 + (tagFor m).length) by omega]
            rw [drop_append_exact hktake]
          rw [htk, hdk]
          constructor
          · rw [denote_append, denote_append, denote_emitIf, denote_emitIf, denote_emitIf,
              List.map_append, List.append_assoc]
          · rfl
        | none =>
          rw [hfi2] at happ
          simp only [Option.map_none'] at happ
          by_cases hnil : (c :: rest).drop k ++ t = []
          · have hdnil : (c :: rest).drop k = [] := (List.append_eq_nil.mp hnil).1
            have htnil : t = [] := (List.append_eq_nil.mp hnil).2
            subst htnil
            simp only [List.append_nil]
            rw [hone]
            dsimp only
            rw [hdnil, processLoop_nil]
            simp [denote]
          · have htwo := processLoop_none (b := (c :: rest) ++ t) (m := m) (by simp) happ
            have hthree := processLoop_none (b := (c :: rest).drop k ++ t) (m := m) hnil hfi2
            rw [htwo, hone, hthree, hpeq]
            dsimp only
            set p2 := findPartialTag ((c :: rest).drop k ++ t) (tagFor m) with hp2
            have hp2le : p2 ≤ ((c :: rest).drop k ++ t).length := findPartialTag_le_len
            have hp2le2 : p2 ≤ (c :: rest).length - k + t.length := by
              simp only [List.length_append, List.length_drop] at hp2le
              exact hp2le
            have harith : ((c :: rest) ++ t).length - p2 =
                k + (((c :: rest).drop k ++ t).length - p2) := by
              simp only [List.length_append, List.length_drop]
              omega
            have htk : ((c :: rest) ++ t).take (((c :: rest) ++ t).length - p2) =
                (c :: rest).take k ++
                  ((c :: rest).drop k ++ t).take (((c :: rest).drop k ++ t).length - p2) := by
              rw [harith, split_at_k (c :: rest) t k, take_append_exact hktake]
            have hdk : ((c :: rest) ++ t).drop (((c :: rest) ++ t).length - p2) =
                ((c :: rest).drop k ++ t).drop (((c :: rest).drop k ++ t).length - p2) := by
              rw [harith, split_at_k (c :: rest) t k, drop_append_exact hktake]
            rw [htk, hdk]
            constructor
            · rw [denote_emitIf, denote_emitIf, denote_emitIf, List.map_append]
            · rfl

end GlmProxy
namespace GlmProxy

/-- The splitter's reachable buffers are proper prefixes of the tag that is
    currently being searched for (the held-back partial tag). -/
def Held (st : SplitterState) : Prop :=
  st.buffer = (tagFor st.inReasoning).take st.buffer.length ∧
  st.buffer.length < (tagFor st.inReasoning).length

theorem held_init : Held initSplitter := by
  constructor
  · rfl
  · simp [initSplitter, tagFor, openTag]

theorem processLoop_held : ∀ (n : Nat) (b : List Char) (m : Bool), b.length ≤ n →
    Held (processLoop b m).2 := by
  intro n
  induction n with
  | zero =>
    intro b m hb
    have : b = [] := List.length_eq_zero.mp (by omega)
    subst this
    rw [processLoop_nil]
    exact ⟨rfl, List.length_pos.mpr (tagFor_ne m)⟩
  | succ n ih =>
    intro b m hb
    match b with
    | [] =>
      rw [processLoop_nil]
      exact ⟨rfl, List.length_pos.mpr (tagFor_ne m)⟩
    | c :: rest =>
      have htpos : 0 < (tagFor m).length := List.length_pos.mpr (tagFor_ne m)
      cases hfi : firstIdx (c :: rest) (tagFor m) with
      | some i =>
        rw [processLoop_some hfi]
        have hocc := firstIdx_sound hfi
        have hil : i + (tagFor m).length ≤ (c :: rest).length := by
          have := hocc.length_le
          simp only [List.length_drop] at this
          omega
        apply ih
        simp only [List.length_drop, List.length_cons]
        simp only [List.length_cons] at hb
        omega
      | none =>
        rw [processLoop_none (by simp) hfi]
        have hple : findPartialTag (c :: rest) (tagFor m) ≤ (c :: rest).length :=
          findPartialTag_le_len
        have hplt : findPartialTag (c :: rest) (tagFor m) < (tagFor m).length :=
          findPartialTag_lt_tag (tagFor_ne m)
        constructor
        · simp only [List.length_drop]
          by_cases hp : 0 < findPartialTag (c :: rest) (tagFor m)
          · have := @findPartialTag_sound (c :: rest) (tagFor m) hp
            have harith : (c :: rest).length -
                ((c :: rest).length - findPartialTag (c :: rest) (tagFor m)) =
                findPartialTag (c :: rest) (tagFor m) := by omega
            rw [harith]
            exact this
          · have hp0 : findPartialTag (c :: rest) (tagFor m) = 0 := by omega
            rw [hp0]
            simp
        · simp only [List.length_drop]
          omega

theorem held_loop {st : SplitterState} (h : Held st) :
    processLoop st.buffer st.inReasoning = ([], st) := by
  obtain ⟨buf, m⟩ := st
  obtain ⟨hpre, hlt⟩ := h
  simp only at hpre hlt ⊢
  match buf, hpre, hlt with
  | [], _, _ => rw [processLoop_nil]
  | c :: rest, hpre, hlt =>
    have hne : (c :: rest) ≠ [] := by simp
    have hfi : firstIdx (c :: rest) (tagFor m) = none := by
      apply (firstIdx_none_iff (tagFor_ne m)).mpr
      intro j hocc
      have h1 := hocc.length_le
      simp only [List.length_drop] at h1
      omega
    rw [processLoop_none hne hfi]
    have hmax : (c :: rest).length ≤ findPartialTag (c :: rest) (tagFor m) := by
      apply findPartialTag_max (le_refl _) hlt (by simp)
      simpa using hpre
    have hple : findPartialTag (c :: rest) (tagFor m) ≤ (c :: rest).length :=
      findPartialTag_le_len
    have heq : (c :: rest).length - findPartialTag (c :: rest) (tagFor m) = 0 := by
      omega
    rw [heq]
    simp [emitIf]

theorem processChunk_held (st : SplitterState) (c : List Char) :
    Held (processChunk st c).2 :=
  processLoop_held (st.buffer ++ c).length _ _ (le_refl _)

theorem denote_flushSeg (st : SplitterState) :
    denote (flushSeg st) =
      st.buffer.map (fun c => ((if st.inReasoning then SegType.thinking else SegType.text), c)) := by
  by_cases h : st.buffer.isEmpty
  · rw [List.isEmpty_iff] at h
    simp [flushSeg, h, denote]
  · simp [flushSeg, h, denote]

theorem runFrom_join : ∀ (chunks : List (List Char)) (st : SplitterState), Held st →
    (denote (runFrom st chunks).1 ++ denote (flushSeg (runFrom st chunks).2) =
      denote (processChunk st chunks.flatten).1 ++
        denote (flushSeg (processChunk st chunks.flatten).2)) ∧
    (runFrom st chunks).2 = (processChunk st chunks.flatten).2 := by
  intro chunks
  induction chunks with
  | nil =>
    intro st hheld
    have : processChunk st ([] : List (List Char)).flatten = ([], st) := by
      show processLoop (st.buffer ++ []) st.inReasoning = ([], st)
      rw [List.append_nil]
      exact held_loop hheld
    rw [this]
    simp [runFrom]
  | cons c cs ih =>
    intro st hheld
    obtain ⟨hc1, hc2⟩ := processLoop_append_split (st.buffer ++ c).length (st.buffer ++ c)
      cs.flatten st.inReasoning (le_refl _)
    have e1 : processLoop (st.buffer ++ c) st.inReasoning = processChunk st c := rfl
    rw [e1] at hc1 hc2
    have e2 : processLoop ((processChunk st c).2.buffer ++ cs.flatten)
        (processChunk st c).2.inReasoning = processChunk (processChunk st c).2 cs.flatten := rfl
    rw [e2] at hc1 hc2
    have e3 : processLoop ((st.buffer ++ c) ++ cs.flatten) st.inReasoning =
        processChunk st (c :: cs).flatten := by
      show _ = processLoop (st.buffer ++ (c ++ cs.flatten)) st.inReasoning
      rw [List.append_assoc]
    rw [e3] at hc1 hc2
    obtain ⟨ih1, ih2⟩ := ih (processChunk st c).2 (processChunk_held st c)
    constructor
    · show denote ((processChunk st c).1 ++ (runFrom (processChunk st c).2 cs).1) ++
        denote (flushSeg (runFrom (processChunk st c).2 cs).2) = _
      rw [denote_append, List.append_assoc, ih1, hc1, hc2, List.append_assoc]
    · show (runFrom (processChunk st c).2 cs).2 = _
      rw [ih2, hc2]

theorem runSplitter_eq_single (chunks : List (List Char)) :
    denote (runSplitter chunks) =
      denote (processChunk initSplitter chunks.flatten).1 ++
        denote (flushSeg (processChunk initSplitter chunks.flatten).2) := by
  obtain ⟨h1, _⟩ := runFrom_join chunks initSplitter held_init
  rw [runSplitter]
  rw [denote_append]
  exact h1

end GlmProxy
namespace GlmProxy

/-- `xs` contains no occurrence of `tag` as a contiguous substring. -/
def noOccur (tag xs : List Char) : Prop := ∀ j, ¬ tag <+: xs.drop j

theorem noOccur_of_lt {tag xs : List Char} (h : xs.length < tag.length) : noOccur tag xs := by
  intro j hocc
  have := hocc.length_le
  simp only [List.length_drop] at this
  omega

/-- A well-formed input: alternating plain-text pieces and reasoning pieces,
    each reasoning piece wrapped in the open/close markers, with a trailing
    text piece. -/
def renderPairs : List (List Char × List Char) → List Char → List Char
  | [], tfin => tfin
  | (t, r) :: ws, tfin => t ++ (openTag ++ (r ++ (closeTag ++ renderPairs ws tfin)))

/-- The denotation the spec demands: the text pieces tagged `text`, the
    wrapped pieces tagged `thinking`, markers removed. -/
def expectedDenote : List (List Char × List Char) → List Char → List (SegType × Char)
  | [], tfin => tfin.map (fun c => (SegType.text, c))
  | (t, r) :: ws, tfin =>
    t.map (fun c => (SegType.text, c)) ++
      (r.map (fun c => (SegType.thinking, c)) ++ expectedDenote ws tfin)

theorem openTag_noBorder : ∀ s, s < openTag.length → 0 < s → ¬ (openTag.drop s <+: openTag) := by
  decide

theorem closeTag_noBorder : ∀ s, s < closeTag.length → 0 < s → ¬ (closeTag.drop s <+: closeTag) := by
  decide

theorem firstIdx_marker {x z tag : List Char}
    (hnb : ∀ s, s < tag.length → 0 < s → ¬ (tag.drop s <+: tag))
    (hno : ∀ j, ¬ tag <+: x.drop j) :
    firstIdx (x ++ (tag ++ z)) tag = some x.length := by
  apply firstIdx_of
  · have : (x ++ (tag ++ z)).drop x.length = tag ++ z := List.drop_left _ _
    rw [this]
    exact List.prefix_append _ _
  · intro j hj hocc
    rw [List.drop_append_of_le_length (by omega)] at hocc
    by_cases hcase : tag.length ≤ (x.drop j).length
    · exact hno j (prefix_of_append_left hocc hcase)
    · have hxl : (x.drop j).length = x.length - j := List.length_drop _ _
      have hxeq : x.drop j = tag.take (x.drop j).length :=
        prefix_of_append_long hocc (by omega)
      have hdp : tag.drop (x.drop j).length <+: tag ++ z := by
        have hsplit : tag.take (x.drop j).length ++ tag.drop (x.drop j).length <+:
            tag.take (x.drop j).length ++ (tag ++ z) := by
          rw [List.take_append_drop]
          rw [hxeq] at hocc
          exact hocc
        exact (List.prefix_append_right_inj _).mp hsplit
      have hfin : tag.drop (x.drop j).length <+: tag :=
        prefix_of_append_left hdp (by simp)
      exact hnb (x.drop j).length (by omega) (by omega) hfin

theorem openTag_ne : openTag ≠ [] := by decide
theorem closeTag_ne : closeTag ≠ [] := by decide

theorem typeFor_false : typeFor false = SegType.text := rfl
theorem typeFor_true : typeFor true = SegType.thinking := rfl

theorem parse_render : ∀ (ws : List (List Char × List Char)) (tfin : List Char),
    (∀ p ∈ ws, noOccur openTag p.1 ∧ noOccur closeTag p.2) → noOccur openTag tfin →
    denote (processLoop (renderPairs ws tfin) false).1 ++
      denote (flushSeg (processLoop (renderPairs ws tfin) false).2) =
      expectedDenote ws tfin := by
  intro ws
  induction ws with
  | nil =>
    intro tfin _ hfin
    rw [renderPairs, expectedDenote]
    match tfin, hfin with
    | [], _ => rw [processLoop_nil]; simp [denote, flushSeg]
    | c :: rest, hfin =>
      have hfi : firstIdx (c :: rest) (tagFor false) = none :=
        (firstIdx_none_iff (tagFor_ne false)).mpr hfin
      rw [processLoop_none (by simp) hfi]
      dsimp only
      rw [denote_emitIf, denote_flushSeg]
      simp only [typeFor_false, if_neg (by simp : ¬ (false = true))]
      rw [← List.map_append, List.take_append_drop]
  | cons pr ws ih =>
    intro tfin hwf hfin
    obtain ⟨t, r⟩ := pr
    obtain ⟨hto, hro⟩ := hwf (t, r) (by simp)
    have hwf' : ∀ p ∈ ws, noOccur openTag p.1 ∧ noOccur closeTag p.2 :=
      fun p hp => hwf p (by simp [hp])
    rw [renderPairs, expectedDenote]
    have h1 : firstIdx (t ++ (openTag ++ (r ++ (closeTag ++ renderPairs ws tfin))))
        (tagFor false) = some t.length :=
      firstIdx_marker openTag_noBorder hto
    rw [processLoop_some h1]
    have htake1 : (t ++ (openTag ++ (r ++ (closeTag ++ renderPairs ws tfin)))).take t.length
        = t := List.take_left _ _
    have hdrop1 : (t ++ (openTag ++ (r ++ (closeTag ++ renderPairs ws tfin)))).drop
        (t.length + (tagFor false).length) = r ++ (closeTag ++ renderPairs ws tfin) := by
      rw [drop_append_exact rfl]
      exact List.drop_left _ _
    rw [htake1, hdrop1]
    have h2 : firstIdx (r ++ (closeTag ++ renderPairs ws tfin)) (tagFor true)
        = some r.length :=
      firstIdx_marker closeTag_noBorder hro
    simp only [Bool.not_false]
    rw [processLoop_some h2]
    have htake2 : (r ++ (closeTag ++ renderPairs ws tfin)).take r.length = r :=
      List.take_left _ _
    have hdrop2 : (r ++ (closeTag ++ renderPairs ws tfin)).drop
        (r.length + (tagFor true).length) = renderPairs ws tfin := by
      rw [drop_append_exact rfl]
      exact List.drop_left _ _
    rw [htake2, hdrop2]
    simp only [Bool.not_true]
    rw [denote_append, denote_append, denote_emitIf, denote_emitIf,
      typeFor_false, typeFor_true]
    rw [List.append_assoc, List.append_assoc]
    rw [ih tfin hwf' hfin]

/-- Claim C1 (splitter round-trip): for any well-formed input - alternating
    text pieces (no open marker) and reasoning pieces (no close marker)
    wrapped in the markers - and any chunking of that input fed to
    `processChunk` followed by one `flush`, the emitted segments carry
    exactly the input text with the markers removed, each character tagged
    `thinking` precisely when it lay between a matching marker pair and
    `text` otherwise. -/
theorem splitter_round_trip (ws : List (List Char × List Char)) (tfin : List Char)
    (chunks : List (List Char))
    (hwf : ∀ p ∈ ws, noOccur openTag p.1 ∧ noOccur closeTag p.2)
    (hfin : noOccur openTag tfin)
    (hjoin : chunks.flatten = renderPairs ws tfin) :
    denote (runSplitter chunks) = expectedDenote ws tfin := by
  rw [runSplitter_eq_single, hjoin]
  have e : processChunk initSplitter (renderPairs ws tfin) =
      processLoop (renderPairs ws tfin) false := rfl
  rw [e]
  exact parse_render ws tfin hwf hfin

theorem splitter_round_trip_witness :
    denote (runSplitter ["x<reas".toList, "oning_content>y</reasoning_content>z".toList]) =
      expectedDenote [("x".toList, "y".toList)] "z".toList :=
  splitter_round_trip [("x".toList, "y".toList)] "z".toList
    ["x<reas".toList, "oning_content>y</reasoning_content>z".toList]
    (by
      intro p hp
      simp only [List.mem_singleton] at hp
      subst hp
      exact ⟨noOccur_of_lt (by decide), noOccur_of_lt (by decide)⟩)
    (noOccur_of_lt (by decide))
    (by decide)

/-- Claim C9 (splitter unterminated tag): for every chunking of
    `"a<reasoning_content>b"` fed to `processChunk` and then flushed, the
    emitted segments denote exactly text `"a"` followed by thinking `"b"`:
    the marker text is neither duplicated nor lost. -/
theorem splitter_unterminated (chunks : List (List Char))
    (hjoin : chunks.flatten = "a<reasoning_content>b".toList) :
    denote (runSplitter chunks) = [(SegType.text, 'a'), (SegType.thinking, 'b')] := by
  rw [runSplitter_eq_single, hjoin]
  decide

theorem splitter_unterminated_witness :
    denote (runSplitter ["a<reasoning".toList, "_content>b".toList]) =
      [(SegType.text, 'a'), (SegType.thinking, 'b')] :=
  splitter_unterminated ["a<reasoning".toList, "_content>b".toList] (by decide)

end GlmProxy
namespace GlmProxy

/-! ## Tool definitions (src/tools/definitions.js) -/

def OUR_TOOL_NAMES : List (List Char) := ["web_search".toList, "web_reader".toList]

def TOOL_ALIASES : List (List Char × List Char) :=
  [("WebSearch".toList, "web_search".toList),
   ("websearch".toList, "web_search".toList),
   ("Websearch".toList, "web_search".toList),
   ("WebFetch".toList, "web_reader".toList),
   ("webfetch".toList, "web_reader".toList),
   ("Webfetch".toList, "web_reader".toList),
   ("search_web".toList, "web_search".toList),
   ("fetch_url".toList, "web_reader".toList),
   ("read_url".toList, "web_reader".toList),
   ("browse".toList, "web_reader".toList)]

/-- JS `isOurTool(name)`: direct match against our tool names, or an alias. -/
def isOurTool (name : List Char) : Bool :=
  OUR_TOOL_NAMES.contains name || TOOL_ALIASES.any (fun a => a.1 == name)

/-- JS `getCanonicalToolName(name)`. -/
def getCanonicalToolName (name : List Char) : List Char :=
  if OUR_TOOL_NAMES.contains name then name
  else
    match (TOOL_ALIASES.find? (fun a => a.1 == name)).map Prod.snd with
    | some canonical => canonical
    | none => name

/-! ## Tool executor (src/tools/executor.js) -/

structure ToolCallFn where
  name : List Char
  arguments : List Char
deriving DecidableEq, Repr

structure ToolCall where
  id : List Char
  fn : ToolCallFn
deriving DecidableEq, Repr

structure AssistantMsg where
  content : Option (List Char)
  tool_calls : List ToolCall
deriving DecidableEq, Repr

/-- One backend (OpenAI-style) response, reduced to the field the loop
    inspects: `response.choices[0].message` (`none` when absent). -/
structure GlmResponse where
  message : Option AssistantMsg
deriving DecidableEq, Repr

/-- A message in the conversation history threaded through the loop. -/
inductive HMsg
  | assistantMsg (content : Option (List Char)) (tool_calls : List ToolCall)
  | toolMsg (tool_call_id : List Char) (content : List Char)
  | plain (role : List Char) (content : List Char)
deriving DecidableEq, Repr

def errInvalidJson : List Char := "Error: Invalid JSON in tool arguments".toList

/-- JS `executeTool`: canonicalizes the name, parses the JSON arguments
    (a parse failure is returned as an error STRING, not thrown), then
    dispatches to the MCP backend.  `findMcp` abstracts the custom-MCP
    registry, `mcpCall` the network call (which may reject), `jsonOk`
    whether `JSON.parse` succeeds on the argument text. -/
def executeTool (findMcp : List Char → Bool)
    (mcpCall : List Char → List Char → Except (List Char) (List Char))
    (jsonOk : List Char → Bool) (tc : ToolCall) : Except (List Char) (List Char) :=
  let name := getCanonicalToolName tc.fn.name
  if !jsonOk tc.fn.arguments then
    Except.ok errInvalidJson
  else if findMcp tc.fn.name then
    mcpCall tc.fn.name tc.fn.arguments
  else if name = "web_search".toList then
    mcpCall name tc.fn.arguments
  else if name = "web_reader".toList then
    mcpCall name tc.fn.arguments
  else
    Except.ok ("Error: Unknown tool ".toList ++ tc.fn.name)

/-- `Promise.allSettled` post-processing: a fulfilled call keeps its value,
    a rejected one becomes an `Error:` string. -/
def settle : Except (List Char) (List Char) → List Char
  | Except.ok v => v
  | Except.error m => "Error: ".toList ++ m

/-- The tool-result messages appended after executing one round of internal
    calls. -/
def toolResultMsgs (ourCalls : List ToolCall) (results : List (List Char)) : List HMsg :=
  (ourCalls.zip results).map (fun p => HMsg.toolMsg p.1.id p.2)

structure ToolConfig where
  maxIterations : Nat
  maxConsecutiveInternal : Nat
deriving DecidableEq, Repr

/-- The `while (iteration < maxIterations)` loop of `executeWithTools`.
    Fuel counts the remaining iterations; exhausting it is the
    `ToolExecutionError` throw (`Except.error ()`).  Also returns the number
    of backend calls made and the final conversation history. -/
def executeLoop (cfg : ToolConfig) (isInternal : List Char → Bool)
    (callGlm : List HMsg → Bool → GlmResponse)
    (runTool : ToolCall → Except (List Char) (List Char)) :
    Nat → Nat → List HMsg → Nat → Except Unit GlmResponse × Nat × List HMsg
  | 0, _, msgs, calls => (Except.error (), calls, msgs)
  | fuel + 1, consecutive, msgs, calls =>
    let response := callGlm msgs false
    let calls' := calls + 1
    match response.message with
    | none => (Except.ok response, calls', msgs)
    | some am =>
      if am.tool_calls.isEmpty then
        (Except.ok response, calls', msgs)
      else
        let ourCalls := am.tool_calls.filter (fun tc => isInternal tc.fn.name)
        let clientCalls := am.tool_calls.filter (fun tc => !(isInternal tc.fn.name))
        if ourCalls.isEmpty then
          (Except.ok response, calls', msgs)
        else if clientCalls.isEmpty && cfg.maxConsecutiveInternal < consecutive + 1 then
          let results := ourCalls.map (fun tc => settle (runTool tc))
          let msgs' := msgs ++ [HMsg.assistantMsg am.content ourCalls] ++
            toolResultMsgs ourCalls results
          (Except.ok (callGlm msgs' true), calls' + 1, msgs')
        else
          let results := ourCalls.map (fun tc => settle (runTool tc))
          let msgs' := msgs ++ [HMsg.assistantMsg am.content ourCalls] ++
            toolResultMsgs ourCalls results
          if !clientCalls.isEmpty then
            (Except.ok ⟨some ⟨am.content, clientCalls⟩⟩, calls', msgs')
          else
            executeLoop cfg isInternal callGlm runTool fuel (consecutive + 1) msgs' calls'

/-- JS `executeWithTools(glmRequest, callGlmFn, config)`. -/
def executeWithTools (cfg : ToolConfig) (isInternal : List Char → Bool)
    (callGlm : List HMsg → Bool → GlmResponse)
    (runTool : ToolCall → Except (List Char) (List Char))
    (messages : List HMsg) : Except Unit GlmResponse × Nat × List HMsg :=
  executeLoop cfg isInternal callGlm runTool cfg.maxIterations 0 messages 0

end GlmProxy
namespace GlmProxy

/-- Claim C2 as stated is false: with `maxConsecutiveInternal = 1` and a
    backend that always returns exactly one internal-only tool call, the
    loop makes 3 backend calls (the `>` comparison lets the first
    internal-only round through), not at most 2. -/
theorem tool_loop_two_calls_cex :
    (executeWithTools ⟨15, 1⟩ (fun n => n == "t".toList)
      (fun _ _ => ⟨some ⟨none, [⟨"c1".toList, ⟨"t".toList, "x".toList⟩⟩]⟩⟩)
      (fun _ => Except.ok "r".toList) []).2.1 = 3 ∧
    ¬ ((executeWithTools ⟨15, 1⟩ (fun n => n == "t".toList)
      (fun _ _ => ⟨some ⟨none, [⟨"c1".toList, ⟨"t".toList, "x".toList⟩⟩]⟩⟩)
      (fun _ => Except.ok "r".toList) []).2.1 ≤ 2) := by
  constructor
  · decide
  · decide

/-- Claim C2 (amended): with `maxConsecutiveInternal = 1`, a backend that on
    every call returns exactly one internal-only tool call, and at least two
    permitted iterations, `executeWithTools` terminates normally after
    exactly 3 backend calls (two normal calls plus one final call with tools
    disabled), using 2 iterations and never exceeding the iteration cap. -/
theorem tool_loop_convergence (cfg : ToolConfig) (isInternal : List Char → Bool)
    (callGlm : List HMsg → Bool → GlmResponse)
    (runTool : ToolCall → Except (List Char) (List Char)) (msgs0 : List HMsg)
    (hmax : cfg.maxConsecutiveInternal = 1) (hit : 2 ≤ cfg.maxIterations)
    (hback : ∀ msgs d, ∃ c tc, callGlm msgs d = ⟨some ⟨c, [tc]⟩⟩ ∧ isInternal tc.fn.name = true) :
    (executeWithTools cfg isInternal callGlm runTool msgs0).2.1 = 3 ∧
    ∃ r, (executeWithTools cfg isInternal callGlm runTool msgs0).1 = Except.ok r := by
  obtain ⟨n, hn⟩ : ∃ n, cfg.maxIterations = n + 1 + 1 := ⟨cfg.maxIterations - 2, by omega⟩
  rw [executeWithTools, hn]
  obtain ⟨c1, tc1, hcall1, hint1⟩ := hback msgs0 false
  rw [executeLoop]
  rw [hcall1]
  simp only [List.isEmpty_cons, List.filter_cons, hint1, Bool.not_true, List.filter_nil,
    List.isEmpty_nil, hmax, if_true, if_false, Bool.false_eq_true, decide_True, decide_False]
  norm_num
  obtain ⟨c2, tc2, hcall2, hint2⟩ := hback
    (msgs0 ++ HMsg.assistantMsg c1 [tc1] :: toolResultMsgs [tc1] [settle (runTool tc1)]) false
  rw [executeLoop, hcall2]
  simp only [List.isEmpty_cons, List.filter_cons, hint2, Bool.not_true, List.filter_nil,
    List.isEmpty_nil, hmax, if_true, if_false, Bool.false_eq_true, decide_True, decide_False]
  norm_num

end GlmProxy
namespace GlmProxy

theorem tool_loop_convergence_witness :
    (executeWithTools ⟨2, 1⟩ (fun n => n == "t".toList)
      (fun _ _ => ⟨some ⟨none, [⟨"c1".toList, ⟨"t".toList, "x".toList⟩⟩]⟩⟩)
      (fun _ => Except.ok "r".toList) []).2.1 = 3 ∧
    ∃ r, (executeWithTools ⟨2, 1⟩ (fun n => n == "t".toList)
      (fun _ _ => ⟨some ⟨none, [⟨"c1".toList, ⟨"t".toList, "x".toList⟩⟩]⟩⟩)
      (fun _ => Except.ok "r".toList) []).1 = Except.ok r :=
  tool_loop_convergence ⟨2, 1⟩ (fun n => n == "t".toList)
    (fun _ _ => ⟨some ⟨none, [⟨"c1".toList, ⟨"t".toList, "x".toList⟩⟩]⟩⟩)
    (fun _ => Except.ok "r".toList) [] rfl (by decide)
    (fun _ _ => ⟨none, ⟨"c1".toList, ⟨"t".toList, "x".toList⟩⟩, rfl, by decide⟩)

/-- Claim C7's universal part is false as stated: the iteration-cap throw in
    `executeWithTools` is itself a `ToolExecutionError`, and it does escape
    the loop - here with `maxIterations = 1` and a backend that always
    returns one internal tool call. -/
theorem tool_error_escapes_cex :
    (executeWithTools ⟨1, 10⟩ (fun n => n == "t".toList)
      (fun _ _ => ⟨some ⟨none, [⟨"c1".toList, ⟨"t".toList, "x".toList⟩⟩]⟩⟩)
      (fun _ => Except.ok "r".toList) []).1 = Except.error () := by
  rfl

/-- Claim C7 (amended): a failure while executing an individual internal
    tool call - here malformed JSON arguments - never aborts the exchange:
    it becomes an error tool-result message appended to the conversation
    history and the loop completes normally.  (Only the separate
    iteration-cap error, which reuses the `ToolExecutionError` class, can
    escape the loop.) -/
theorem tool_errors_nonfatal (cfg : ToolConfig) (isInternal : List Char → Bool)
    (findMcp : List Char → Bool)
    (mcpCall : List Char → List Char → Except (List Char) (List Char))
    (jsonOk : List Char → Bool) (badCall : ToolCall) (msgs0 : List HMsg)
    (callGlm : List HMsg → Bool → GlmResponse)
    (hbad : jsonOk badCall.fn.arguments = false)
    (hint : isInternal badCall.fn.name = true)
    (hit : 2 ≤ cfg.maxIterations) (hcons : 1 ≤ cfg.maxConsecutiveInternal)
    (hc1 : callGlm msgs0 false = ⟨some ⟨none, [badCall]⟩⟩)
    (hc2 : callGlm
      (msgs0 ++ HMsg.assistantMsg none [badCall] :: toolResultMsgs [badCall] [errInvalidJson])
      false = ⟨some ⟨none, []⟩⟩) :
    executeWithTools cfg isInternal callGlm (executeTool findMcp mcpCall jsonOk) msgs0 =
      (Except.ok ⟨some ⟨none, []⟩⟩, 2,
        msgs0 ++ HMsg.assistantMsg none [badCall] ::
          toolResultMsgs [badCall] [errInvalidJson]) := by
  obtain ⟨n, hn⟩ : ∃ n, cfg.maxIterations = n + 1 + 1 := ⟨cfg.maxIterations - 2, by omega⟩
  rw [executeWithTools, hn]
  rw [executeLoop, hc1]
  have hnotlt : ¬ (cfg.maxConsecutiveInternal < 0 + 1) := by omega
  have hsettle : settle (executeTool findMcp mcpCall jsonOk badCall) = errInvalidJson := by
    rw [executeTool]
    simp only [hbad, Bool.not_false, if_true]
    rfl
  simp only [List.isEmpty_cons, List.filter_cons, hint, Bool.not_true, List.filter_nil,
    List.isEmpty_nil, if_true, if_false, Bool.false_eq_true, hnotlt, decide_False,
    Bool.and_false, List.map_cons, List.map_nil, hsettle]
  norm_num
  rw [executeLoop, hc2]
  simp

end GlmProxy
namespace GlmProxy

theorem tool_errors_nonfatal_witness :
    executeWithTools ⟨2, 10⟩ (fun n => n == "t".toList)
      (fun msgs _ => if msgs.isEmpty then
          ⟨some ⟨none, [⟨"c1".toList, ⟨"t".toList, "bad".toList⟩⟩]⟩⟩
        else ⟨some ⟨none, []⟩⟩)
      (executeTool (fun _ => false) (fun _ _ => Except.ok "r".toList) (fun _ => false)) [] =
      (Except.ok ⟨some ⟨none, []⟩⟩, 2,
        [] ++ HMsg.assistantMsg none [⟨"c1".toList, ⟨"t".toList, "bad".toList⟩⟩] ::
          toolResultMsgs [⟨"c1".toList, ⟨"t".toList, "bad".toList⟩⟩] [errInvalidJson]) :=
  tool_errors_nonfatal ⟨2, 10⟩ (fun n => n == "t".toList) (fun _ => false)
    (fun _ _ => Except.ok "r".toList) (fun _ => false)
    ⟨"c1".toList, ⟨"t".toList, "bad".toList⟩⟩ []
    (fun msgs _ => if msgs.isEmpty then
        ⟨some ⟨none, [⟨"c1".toList, ⟨"t".toList, "bad".toList⟩⟩]⟩⟩
      else ⟨some ⟨none, []⟩⟩)
    rfl (by decide) (by decide) (by decide) rfl rfl

end GlmProxy
namespace GlmProxy

/-! ## Response transformer (src/transformers/response.js) -/

/-- JS `mapStopReason(finishReason, hasToolCalls)`: tool calls present force
    `tool_use`; otherwise a lookup table with default `end_turn`. -/
def mapStopReason (finishReason : List Char) (hasToolCalls : Bool) : List Char :=
  if hasToolCalls then "tool_use".toList
  else if finishReason = "stop".toList then "end_turn".toList
  else if finishReason = "length".toList then "max_tokens".toList
  else if finishReason = "tool_calls".toList then "tool_use".toList
  else if finishReason = "content_filter".toList then "end_turn".toList
  else if finishReason = "function_call".toList then "tool_use".toList
  else "end_turn".toList

/-- The stop-reason recomputation in `transformResponse`: only tool calls
    that are not the proxy's own count as client tool calls. -/
def transformStopReason (finishReason : List Char) (tool_calls : List ToolCall) : List Char :=
  let clientToolCalls := tool_calls.filter (fun tc => !(isOurTool tc.fn.name))
  mapStopReason finishReason (!clientToolCalls.isEmpty)

/-- Claim C5 as stated is false: a response with `finish_reason = "length"`
    that still carries a client tool call is mapped to `tool_use`, not
    `max_tokens`. -/
theorem stop_reason_length_cex :
    transformStopReason "length".toList [⟨"x1".toList, ⟨"Glob".toList, "a".toList⟩⟩] =
      "tool_use".toList ∧
    transformStopReason "length".toList [⟨"x1".toList, ⟨"Glob".toList, "a".toList⟩⟩] ≠
      "max_tokens".toList := by
  decide

/-- Claim C5 (amended): the stop-reason mapping is as claimed except that
    the presence of client tool calls always wins: `tool_calls` maps to
    `tool_use`; with no client tool calls `stop` maps to `end_turn`,
    `length` to `max_tokens`, `function_call` to `tool_use`,
    `content_filter` and every unrecognized value to `end_turn`; with client
    tool calls present every finish reason (including `length`) maps to
    `tool_use`. -/
theorem stop_reason_mapping :
    mapStopReason "tool_calls".toList true = "tool_use".toList ∧
    mapStopReason "stop".toList false = "end_turn".toList ∧
    mapStopReason "length".toList false = "max_tokens".toList ∧
    mapStopReason "length".toList true = "tool_use".toList ∧
    mapStopReason "function_call".toList false = "tool_use".toList ∧
    mapStopReason "content_filter".toList false = "end_turn".toList ∧
    (∀ fin, fin ≠ "stop".toList → fin ≠ "length".toList → fin ≠ "tool_calls".toList →
      fin ≠ "content_filter".toList → fin ≠ "function_call".toList →
      mapStopReason fin false = "end_turn".toList) ∧
    (∀ fin tcs, (tcs.filter (fun tc => !(isOurTool tc.fn.name))).isEmpty = false →
      transformStopReason fin tcs = "tool_use".toList) ∧
    (∀ fin tcs, (tcs.filter (fun tc => !(isOurTool tc.fn.name))).isEmpty = true →
      transformStopReason fin tcs = mapStopReason fin false) := by
  refine ⟨by decide, by decide, by decide, by decide, by decide, by decide, ?_, ?_, ?_⟩
  · intro fin h1 h2 h3 h4 h5
    rw [mapStopReason, if_neg (by simp), if_neg h1, if_neg h2, if_neg h3, if_neg h4, if_neg h5]
  · intro fin tcs h
    rw [transformStopReason]
    simp only [h, Bool.not_false]
    rw [mapStopReason, if_pos rfl]
  · intro fin tcs h
    rw [transformStopReason]
    simp only [h, Bool.not_true]

theorem stop_reason_mapping_witness :
    mapStopReason "foo".toList false = "end_turn".toList ∧
    transformStopReason "length".toList [] = mapStopReason "length".toList false :=
  ⟨stop_reason_mapping.2.2.2.2.2.2.1 "foo".toList (by decide) (by decide) (by decide)
      (by decide) (by decide),
    stop_reason_mapping.2.2.2.2.2.2.2.2 "length".toList [] (by decide)⟩

/-! ## Context recovery (src/server.js, handleMessages auto-compact retry) -/

structure CErr where
  isContextLimit : Bool
  code : Nat
deriving DecidableEq, Repr

inductive ReqMsg
  | assistantText (content : List Char)
  | otherMsg (payload : List Char)
deriving DecidableEq, Repr

/-- The fallback summary produced when summary generation itself fails. -/
def fallbackSummary (n : Nat) : List Char :=
  "<summary>Previous conversation contained ".toList ++ (toString n).toList ++
    " messages. Summary generation failed, but the conversation was compacted to continue.</summary>".toList

/-- `summarizeConversation`: one backend call; on failure the fallback
    summary is substituted rather than aborting. -/
def summarizeConversation (sumCall : Except CErr (List Char)) (msgCount : Nat) : List Char :=
  match sumCall with
  | Except.ok s => s
  | Except.error _ => fallbackSummary msgCount

structure HandleResult where
  outcome : Except CErr (List Char)
  attempts : Nat
  summaryCalls : Nat
  retryMessages : Option (List ReqMsg)
deriving Repr

/-- The try/catch wrapper of `handleMessages`: one top-level attempt; on a
    `ContextLimitError` with more than one message and no streaming, one
    summary call, replacement of the history by a single assistant message,
    and exactly one retry whose error (if any) is surfaced. -/
def handleMessagesModel (attempt : Nat → List ReqMsg → Except CErr (List Char))
    (sumCall : Except CErr (List Char)) (wantsStreaming : Bool)
    (messages : List ReqMsg) : HandleResult :=
  match attempt 0 messages with
  | Except.ok r => ⟨Except.ok r, 1, 0, none⟩
  | Except.error e =>
    if e.isContextLimit && !wantsStreaming && decide (1 < messages.length) then
      let summary := summarizeConversation sumCall messages.length
      let compacted := [ReqMsg.assistantText summary]
      match attempt 1 compacted with
      | Except.ok r => ⟨Except.ok r, 2, 1, some compacted⟩
      | Except.error e2 => ⟨Except.error e2, 2, 1, some compacted⟩
    else ⟨Except.error e, 1, 0, none⟩

/-- Claim C6 (context recovery): when a non-streaming attempt fails with a
    context-limit error and the conversation has more than one message, the
    proxy makes one summary call, replaces the whole history with a single
    assistant message holding the summary, retries exactly once, and
    surfaces the retry's error (never the original) when the retry fails;
    no run ever makes more than two attempts. -/
theorem context_recovery (attempt : Nat → List ReqMsg → Except CErr (List Char))
    (sumCall : Except CErr (List Char)) (streaming : Bool) (msgs : List ReqMsg) (e : CErr)
    (hfail : attempt 0 msgs = Except.error e) (hctx : e.isContextLimit = true)
    (hstream : streaming = false) (hlen : 1 < msgs.length) :
    ((handleMessagesModel attempt sumCall streaming msgs).attempts = 2 ∧
     (handleMessagesModel attempt sumCall streaming msgs).summaryCalls = 1 ∧
     (handleMessagesModel attempt sumCall streaming msgs).retryMessages =
       some [ReqMsg.assistantText (summarizeConversation sumCall msgs.length)] ∧
     (∀ e2, attempt 1 [ReqMsg.assistantText (summarizeConversation sumCall msgs.length)] =
        Except.error e2 →
        (handleMessagesModel attempt sumCall streaming msgs).outcome = Except.error e2) ∧
     (∀ r, attempt 1 [ReqMsg.assistantText (summarizeConversation sumCall msgs.length)] =
        Except.ok r →
        (handleMessagesModel attempt sumCall streaming msgs).outcome = Except.ok r)) ∧
    (∀ (a : Nat → List ReqMsg → Except CErr (List Char)) s w m,
      (handleMessagesModel a s w m).attempts ≤ 2) := by
  constructor
  · rw [handleMessagesModel, hfail]
    dsimp only
    rw [if_pos (by simp [hctx, hstream, hlen])]
    cases hretry : attempt 1 [ReqMsg.assistantText (summarizeConversation sumCall msgs.length)] with
    | ok r =>
      refine ⟨rfl, rfl, rfl, ?_, ?_⟩
      · intro e2 h2
        exact absurd h2 (by simp)
      · intro r2 h2
        injection h2 with h
        rw [h]
    | error e2 =>
      refine ⟨rfl, rfl, rfl, ?_, ?_⟩
      · intro e3 h3
        injection h3 with h
        rw [h]
      · intro r2 h2
        exact absurd h2 (by simp)
  · intro a s w m
    rw [handleMessagesModel]
    cases a 0 m with
    | ok r => simp
    | error e0 =>
      dsimp only
      by_cases hc : (e0.isContextLimit && !w && decide (1 < m.length)) = true
      · rw [if_pos hc]
        cases a 1 [ReqMsg.assistantText (summarizeConversation s m.length)] <;> simp
      · rw [if_neg hc]
        simp

theorem context_recovery_witness :
    (handleMessagesModel
      (fun i _ => if i = 0 then Except.error ⟨true, 7⟩ else Except.error ⟨false, 9⟩)
      (Except.ok "sum".toList) false
      [ReqMsg.otherMsg "a".toList, ReqMsg.otherMsg "b".toList]).attempts = 2 ∧
    (handleMessagesModel
      (fun i _ => if i = 0 then Except.error ⟨true, 7⟩ else Except.error ⟨false, 9⟩)
      (Except.ok "sum".toList) false
      [ReqMsg.otherMsg "a".toList, ReqMsg.otherMsg "b".toList]).outcome =
        Except.error ⟨false, 9⟩ := by
  have h := context_recovery
    (fun i _ => if i = 0 then Except.error ⟨true, 7⟩ else Except.error ⟨false, 9⟩)
    (Except.ok "sum".toList) false
    [ReqMsg.otherMsg "a".toList, ReqMsg.otherMsg "b".toList] ⟨true, 7⟩
    rfl rfl rfl (by decide)
  exact ⟨h.1.1, h.1.2.2.2.1 ⟨false, 9⟩ rfl⟩

end GlmProxy
namespace GlmProxy

/-! ## Model router (model-router.js) and endpoint selection (src/server.js) -/

inductive MBlock
  | image
  | imageUrl
  | video
  | videoUrl
  | toolResultStr (s : List Char)
  | toolResultArr (content : List MBlock)
  | textBlock (s : List Char)
  | otherBlock

/-- JS `isImageBlock`: `type === 'image'` or `type === 'image_url'`. -/
def isImageBlock : MBlock → Bool
  | MBlock.image => true
  | MBlock.imageUrl => true
  | _ => false

/-- JS `isVideoBlock`: `type === 'video'` or `type === 'video_url'`. -/
def isVideoBlock : MBlock → Bool
  | MBlock.video => true
  | MBlock.videoUrl => true
  | _ => false

def isMediaBlock (b : MBlock) : Bool := isImageBlock b || isVideoBlock b

/-- JS `contentHasMedia`: a direct media block counts; a `tool_result`
    whose content is an array counts when that array holds a media block;
    a `tool_result` with string content never counts. -/
def contentHasMedia (blocks : List MBlock) : Bool :=
  blocks.any (fun b =>
    if isMediaBlock b then true
    else
      match b with
      | MBlock.toolResultStr _ => false
      | MBlock.toolResultArr inner => inner.any isMediaBlock
      | _ => false)

inductive MsgContent
  | str (s : List Char)
  | blocks (bs : List MBlock)

structure AnthMsg where
  role : List Char
  content : MsgContent

/-- JS `detectMedia(messages)`. -/
def detectMedia (messages : List AnthMsg) : Bool :=
  messages.any (fun m =>
    match m.content with
    | MsgContent.str _ => false
    | MsgContent.blocks bs => contentHasMedia bs)

/-- JS `detectImages` - alias for `detectMedia`. -/
def detectImages (messages : List AnthMsg) : Bool := detectMedia messages

/-- JS `selectModel(messages)`: vision model iff media detected. -/
def selectModel (textModel visionModel : List Char) (messages : List AnthMsg) :
    List Char × Bool :=
  let hasMedia := detectMedia messages
  (if hasMedia then visionModel else textModel, hasMedia)

/-- JS `determineEndpoint(hasImagesInCurrentMessage)` from src/server.js. -/
def determineEndpoint (mode : List Char) (useAnthropic : Bool)
    (hasImagesInCurrentMessage : Bool) : List Char :=
  if hasImagesInCurrentMessage then "openai".toList
  else if mode = "anthropic".toList ∨ mode = "openai".toList ∨ mode = "bigmodel".toList then
    mode
  else if useAnthropic then "anthropic".toList
  else "openai".toList

/-- `handleMessages` and `transformRequest` both scan only the last message:
    `messages.length > 0 ? [messages[messages.length - 1]] : []`. -/
def lastMessageList (messages : List AnthMsg) : List AnthMsg :=
  match messages.getLast? with
  | some m => [m]
  | none => []

/-- The endpoint chosen for a request (src/server.js handleMessages). -/
def routeRequest (mode : List Char) (useAnthropic : Bool) (messages : List AnthMsg) :
    List Char :=
  determineEndpoint mode useAnthropic (detectImages (lastMessageList messages))

/-- The backend model chosen for a request (src/transformers/request.js). -/
def requestModel (textModel visionModel : List Char) (messages : List AnthMsg) : List Char :=
  (selectModel textModel visionModel (lastMessageList messages)).1

/-- Claim C8 (endpoint/model routing): an image in the last message forces
    the OpenAI-style endpoint and the media-capable model for every mode;
    without one, `anthropic`/`openai`/`bigmodel` route to themselves and any
    other mode falls back to the legacy `useAnthropic` flag; and routing
    depends only on the last message, so media earlier in the history never
    affects it. -/
theorem endpoint_model_routing :
    (∀ (mode : List Char) (useA : Bool) (msgs : List AnthMsg) (m : AnthMsg) (bs : List MBlock),
      msgs.getLast? = some m → m.content = MsgContent.blocks bs → MBlock.image ∈ bs →
      routeRequest mode useA msgs = "openai".toList ∧
      ∀ tm vm, requestModel tm vm msgs = vm) ∧
    (∀ (mode : List Char) (useA : Bool) (msgs : List AnthMsg),
      detectImages (lastMessageList msgs) = false →
      (mode = "anthropic".toList → routeRequest mode useA msgs = "anthropic".toList) ∧
      (mode = "openai".toList → routeRequest mode useA msgs = "openai".toList) ∧
      (mode = "bigmodel".toList → routeRequest mode useA msgs = "bigmodel".toList) ∧
      (mode ≠ "anthropic".toList → mode ≠ "openai".toList → mode ≠ "bigmodel".toList →
        routeRequest mode useA msgs =
          (if useA then "anthropic".toList else "openai".toList))) ∧
    (∀ (mode : List Char) (useA : Bool) (msgs1 msgs2 : List AnthMsg),
      msgs1.getLast? = msgs2.getLast? →
      routeRequest mode useA msgs1 = routeRequest mode useA msgs2 ∧
      ∀ tm vm, requestModel tm vm msgs1 = requestModel tm vm msgs2) := by
  refine ⟨?_, ?_, ?_⟩
  · intro mode useA msgs m bs hlast hcont hmem
    have hmedia : detectImages (lastMessageList msgs) = true := by
      rw [lastMessageList, hlast]
      show detectMedia [m] = true
      rw [detectMedia]
      simp only [List.any_cons, List.any_nil, Bool.or_false]
      rw [hcont]
      dsimp only
      rw [contentHasMedia, List.any_eq_true]
      exact ⟨MBlock.image, hmem, by rfl⟩
    constructor
    · rw [routeRequest, hmedia, determineEndpoint, if_pos rfl]
    · intro tm vm
      rw [requestModel, selectModel]
      show (if detectMedia (lastMessageList msgs) then vm else tm) = vm
      rw [show detectMedia (lastMessageList msgs) = true from hmedia, if_pos rfl]
  · intro mode useA msgs hno
    refine ⟨?_, ?_, ?_, ?_⟩
    · intro h
      rw [routeRequest, hno, determineEndpoint,
        if_neg (by simp), if_pos (Or.inl h)]
      exact h
    · intro h
      rw [routeRequest, hno, determineEndpoint,
        if_neg (by simp), if_pos (Or.inr (Or.inl h))]
      exact h
    · intro h
      rw [routeRequest, hno, determineEndpoint,
        if_neg (by simp), if_pos (Or.inr (Or.inr h))]
      exact h
    · intro h1 h2 h3
      have hcond : ¬ (mode = "anthropic".toList ∨ mode = "openai".toList ∨
          mode = "bigmodel".toList) := by
        simp only [not_or]
        exact ⟨h1, h2, h3⟩
      rw [routeRequest, hno, determineEndpoint, if_neg (by simp), if_neg hcond]
  · intro mode useA msgs1 msgs2 hlast
    have he : lastMessageList msgs1 = lastMessageList msgs2 := by
      rw [lastMessageList, lastMessageList, hlast]
    constructor
    · rw [routeRequest, routeRequest, he]
    · intro tm vm
      rw [requestModel, requestModel, he]

theorem endpoint_model_routing_witness :
    routeRequest "anthropic".toList true
      [⟨"user".toList, MsgContent.str "old".toList⟩,
       ⟨"user".toList, MsgContent.blocks [MBlock.image]⟩] = "openai".toList ∧
    requestModel "glm-4.6".toList "glm-4.6v".toList
      [⟨"user".toList, MsgContent.str "old".toList⟩,
       ⟨"user".toList, MsgContent.blocks [MBlock.image]⟩] = "glm-4.6v".toList := by
  have h := endpoint_model_routing.1 "anthropic".toList true
    [⟨"user".toList, MsgContent.str "old".toList⟩,
     ⟨"user".toList, MsgContent.blocks [MBlock.image]⟩]
    ⟨"user".toList, MsgContent.blocks [MBlock.image]⟩ [MBlock.image]
    rfl rfl (by simp)
  exact ⟨h.1, h.2 _ _⟩

/-- Claim C10 (implicit): media detection recurses one level into
    `tool_result` blocks - a `tool_result` with an array content counts as
    media exactly when the array holds an image or video block, and then the
    media-capable model is selected exactly as for a direct image block,
    while a `tool_result` with plain string content never counts. -/
theorem media_in_tool_result :
    (∀ s, contentHasMedia [MBlock.toolResultStr s] = false) ∧
    (∀ inner, contentHasMedia [MBlock.toolResultArr inner] = inner.any isMediaBlock) ∧
    (∀ (tm vm role : List Char) (inner : List MBlock), inner.any isMediaBlock = true →
      selectModel tm vm [⟨role, MsgContent.blocks [MBlock.toolResultArr inner]⟩] =
        selectModel tm vm [⟨role, MsgContent.blocks [MBlock.image]⟩] ∧
      (selectModel tm vm [⟨role, MsgContent.blocks [MBlock.toolResultArr inner]⟩]).1 = vm) := by
  refine ⟨?_, ?_, ?_⟩
  · intro s
    rfl
  · intro inner
    rw [contentHasMedia]
    simp [isMediaBlock, isImageBlock, isVideoBlock]
  · intro tm vm role inner hmedia
    have hdet : detectMedia [⟨role, MsgContent.blocks [MBlock.toolResultArr inner]⟩] = true := by
      rw [detectMedia]
      simp only [List.any_cons, List.any_nil, Bool.or_false]
      rw [contentHasMedia]
      simp [isMediaBlock, isImageBlock, isVideoBlock, hmedia]
    have hdet2 : detectMedia [⟨role, MsgContent.blocks [MBlock.image]⟩] = true := by
      rfl
    constructor
    · rw [selectModel, selectModel, hdet, hdet2]
    · rw [selectModel]
      show (if detectMedia _ then vm else tm) = vm
      rw [hdet, if_pos rfl]

theorem media_in_tool_result_witness :
    selectModel "glm-4.6".toList "glm-4.6v".toList
      [⟨"user".toList, MsgContent.blocks [MBlock.toolResultArr [MBlock.video]]⟩] =
      selectModel "glm-4.6".toList "glm-4.6v".toList
        [⟨"user".toList, MsgContent.blocks [MBlock.image]⟩] ∧
    (selectModel "glm-4.6".toList "glm-4.6v".toList
      [⟨"user".toList, MsgContent.blocks [MBlock.toolResultArr [MBlock.video]]⟩]).1 =
      "glm-4.6v".toList := by
  have h := media_in_tool_result.2.2 "glm-4.6".toList "glm-4.6v".toList "user".toList
    [MBlock.video] (by rfl)
  exact h

end GlmProxy
namespace GlmProxy

/-! ## Streaming reconstruction engine
    (src/config.js, streamAnthropicWithToolDetection / streamFromAnthropic) -/

inductive BlockType
  | textB
  | thinkingB
  | imageB
  | toolUseB
  | toolResultB
  | serverToolUseB
  | serverToolResultB
  | otherB
deriving DecidableEq, Repr

/-- `VALID_CONTENT_TYPES` - block types Claude Code accepts. -/
def validContentType : BlockType → Bool
  | BlockType.textB => true
  | BlockType.imageB => true
  | BlockType.toolUseB => true
  | BlockType.toolResultB => true
  | BlockType.thinkingB => true
  | _ => false

/-- `SERVER_TOOL_TYPES` - Z.ai server-side tool blocks, tracked but not
    forwarded. -/
def serverToolType : BlockType → Bool
  | BlockType.serverToolUseB => true
  | BlockType.serverToolResultB => true
  | _ => false

inductive UpDelta
  | textDelta (s : List Char)
  | thinkingDelta (s : List Char)
  | inputJsonDelta (s : List Char)
  | otherDelta
deriving DecidableEq, Repr

/-- Upstream SSE events (the hybrid OpenAI-style `choices[0].delta` chunk
    and the Anthropic-native event kinds the engine switches on). -/
inductive UpEvent
  | choicesDelta (reasoning : Option (List Char)) (content : Option (List Char))
      (finish : Option (List Char))
  | msgStartEv
  | blockStartEv (idx : Nat) (btype : BlockType) (name : List Char)
  | blockDeltaEv (idx : Nat) (d : UpDelta)
  | blockStopEv (idx : Nat)
  | msgDeltaEv (stop : Option (List Char))
  | msgStopEv
  | unknownEv
deriving DecidableEq, Repr

/-- Outbound events written to the client.  `synth = true` marks a
    `content_block_start` whose index the engine assigned itself via
    `streamState.currentBlockIndex++`; `synth = false` is a passthrough of
    the upstream event with the upstream's own index. -/
inductive OutEvent
  | outMsgStart
  | outBlockStart (idx : Int) (btype : BlockType) (synth : Bool)
  | outBlockDelta (idx : Int) (d : UpDelta)
  | outBlockStop (idx : Int)
  | outUnknown
deriving DecidableEq, Repr

/-- The persistent `streamState` threaded across recursive continuations. -/
structure StreamPersist where
  messageStartSent : Bool
  currentBlockIndex : Nat
  skippingBlockIndex : Option Nat
  serverToolInProgress : Bool
deriving DecidableEq, Repr

structure ToolUseAcc where
  name : List Char
  input : List Char
  idx : Nat
deriving DecidableEq, Repr

/-- The per-call local variables of `streamAnthropicWithToolDetection`. -/
structure StreamLocal where
  thinkingBlockStarted : Bool
  thinkingBlockIndex : Int
  textBlockStarted : Bool
  textBlockIndex : Int
  parsedThinkingBlockStarted : Bool
  nativeThinkingBlockActive : Bool
  currentToolUse : Option ToolUseAcc
  reasoningParser : SplitterState
  stopReason : List Char
deriving DecidableEq, Repr

def initStreamPersist : StreamPersist := ⟨false, 0, none, false⟩

def initStreamLocal : StreamLocal :=
  ⟨false, -1, false, -1, false, false, none, initSplitter, "end_turn".toList⟩

abbrev StepOut := StreamPersist × StreamLocal × List OutEvent

/-- `ensureMessageStart` helper. -/
def ensureMessageStart (p : StreamPersist) (l : StreamLocal) : StepOut :=
  if p.messageStartSent then (p, l, [])
  else ({ p with messageStartSent := true }, l, [OutEvent.outMsgStart])

/-- `startTextBlock` helper: index assigned from `currentBlockIndex++`. -/
def startTextBlock (p : StreamPersist) (l : StreamLocal) : StepOut :=
  if l.textBlockStarted then (p, l, [])
  else
    let r := ensureMessageStart p l
    let idx := r.1.currentBlockIndex
    ({ r.1 with currentBlockIndex := idx + 1 },
      { r.2.1 with textBlockStarted := true, textBlockIndex := Int.ofNat idx },
      r.2.2 ++ [OutEvent.outBlockStart (Int.ofNat idx) BlockType.textB true])

/-- `startParsedThinkingBlock` helper. -/
def startParsedThinkingBlock (p : StreamPersist) (l : StreamLocal) : StepOut :=
  if l.parsedThinkingBlockStarted then (p, l, [])
  else
    let r := ensureMessageStart p l
    let idx := r.1.currentBlockIndex
    ({ r.1 with currentBlockIndex := idx + 1 },
      { r.2.1 with
          parsedThinkingBlockStarted := true
          thinkingBlockStarted := true
          thinkingBlockIndex := Int.ofNat idx },
      r.2.2 ++ [OutEvent.outBlockStart (Int.ofNat idx) BlockType.thinkingB true])

/-- `closeParsedThinkingBlock` helper. -/
def closeParsedThinkingBlock (p : StreamPersist) (l : StreamLocal) : StepOut :=
  if l.parsedThinkingBlockStarted then
    (p, { l with parsedThinkingBlockStarted := false },
      [OutEvent.outBlockStop l.thinkingBlockIndex])
  else (p, l, [])

/-- `emitThinkingDelta`: opens the parsed thinking block lazily; does NOT
    close an open text block. -/
def emitThinkingDelta (p : StreamPersist) (l : StreamLocal) (content : List Char) : StepOut :=
  let r := startParsedThinkingBlock p l
  (r.1, r.2.1, r.2.2 ++ [OutEvent.outBlockDelta r.2.1.thinkingBlockIndex
    (UpDelta.thinkingDelta content)])

/-- `emitTextDelta`: closes an open parsed thinking block first, then opens
    the text block lazily. -/
def emitTextDelta (p : StreamPersist) (l : StreamLocal) (content : List Char) : StepOut :=
  let r1 := closeParsedThinkingBlock p l
  let r2 := startTextBlock r1.1 r1.2.1
  (r2.1, r2.2.1, r1.2.2 ++ r2.2.2 ++ [OutEvent.outBlockDelta r2.2.1.textBlockIndex
    (UpDelta.textDelta content)])

/-- The `for (const segment of segments)` loop over splitter output. -/
def emitSegments (p : StreamPersist) (l : StreamLocal) : List Segment → StepOut
  | [] => (p, l, [])
  | s :: rest =>
    let r :=
      if s.content.isEmpty then (p, l, ([] : List OutEvent))
      else
        match s.type with
        | SegType.thinking => emitThinkingDelta p l s.content
        | SegType.text => emitTextDelta p l s.content
    let r2 := emitSegments r.1 r.2.1 rest
    (r2.1, r2.2.1, r.2.2 ++ r2.2.2)

/-- The `delta.reasoning_content` branch of the hybrid (choices) path. -/
def handleReasoning (p : StreamPersist) (l : StreamLocal) (rc : List Char) : StepOut :=
  if l.thinkingBlockStarted then
    (p, l, [OutEvent.outBlockDelta l.thinkingBlockIndex (UpDelta.thinkingDelta rc)])
  else
    let r := ensureMessageStart p l
    let idx := r.1.currentBlockIndex
    ({ r.1 with currentBlockIndex := idx + 1 },
      { r.2.1 with thinkingBlockStarted := true, thinkingBlockIndex := Int.ofNat idx },
      r.2.2 ++ [OutEvent.outBlockStart (Int.ofNat idx) BlockType.thinkingB true,
        OutEvent.outBlockDelta (Int.ofNat idx) (UpDelta.thinkingDelta rc)])

/-- The `delta.content` branch of the hybrid path: closes an open thinking
    block before the text block starts (but leaves `thinkingBlockStarted`
    set). -/
def handleContent (p : StreamPersist) (l : StreamLocal) (c : List Char) : StepOut :=
  let es1 : List OutEvent :=
    if l.thinkingBlockStarted && !l.textBlockStarted then
      [OutEvent.outBlockStop l.thinkingBlockIndex]
    else []
  if l.textBlockStarted then
    (p, l, es1 ++ [OutEvent.outBlockDelta l.textBlockIndex (UpDelta.textDelta c)])
  else
    let r := ensureMessageStart p l
    let idx := r.1.currentBlockIndex
    ({ r.1 with currentBlockIndex := idx + 1 },
      { r.2.1 with textBlockStarted := true, textBlockIndex := Int.ofNat idx },
      es1 ++ r.2.2 ++ [OutEvent.outBlockStart (Int.ofNat idx) BlockType.textB true,
        OutEvent.outBlockDelta (Int.ofNat idx) (UpDelta.textDelta c)])

/-- The `finish_reason` branch of the hybrid path: records the stop reason
    and closes the open text block, else the open thinking block. -/
def handleFinish (p : StreamPersist) (l : StreamLocal) (fr : List Char) : StepOut :=
  let sr := if fr = "tool_calls".toList then "tool_use".toList
    else if fr = "stop".toList then "end_turn".toList else fr
  let l' := { l with stopReason := sr }
  if l'.textBlockStarted then
    (p, l', [OutEvent.outBlockStop l'.textBlockIndex])
  else if l'.thinkingBlockStarted then
    (p, l', [OutEvent.outBlockStop l'.thinkingBlockIndex])
  else (p, l', [])

/-- One optional hybrid field, guarded by JS truthiness (absent or empty
    strings are skipped). -/
def handleOptField (f : StreamPersist → StreamLocal → List Char → StepOut)
    (p : StreamPersist) (l : StreamLocal) : Option (List Char) → StepOut
  | none => (p, l, [])
  | some s => if s.isEmpty then (p, l, []) else f p l s

/-- One upstream event through the engine (the body of the SSE line loop in
    `streamAnthropicWithToolDetection`).  `internal` abstracts
    `shouldHandleInternally`, `jsonOk` whether `JSON.parse` succeeds on the
    accumulated tool input. -/
def stepEvent (internal : List Char → Bool) (jsonOk : List Char → Bool)
    (thinkingEnabled : Bool) (p : StreamPersist) (l : StreamLocal) : UpEvent → StepOut
  | UpEvent.choicesDelta rc c fr =>
    let r1 := handleOptField handleReasoning p l rc
    let r2 := handleOptField handleContent r1.1 r1.2.1 c
    let r3 := handleOptField handleFinish r2.1 r2.2.1 fr
    (r3.1, r3.2.1, r1.2.2 ++ r2.2.2 ++ r3.2.2)
  | UpEvent.msgStartEv =>
    if p.messageStartSent then (p, l, [])
    else ({ p with messageStartSent := true }, l, [OutEvent.outMsgStart])
  | UpEvent.blockStartEv idx btype name =>
    if serverToolType btype then
      ({ p with
          skippingBlockIndex := some idx
          serverToolInProgress := btype == BlockType.serverToolUseB || p.serverToolInProgress },
        l, [])
    else if !validContentType btype then
      ({ p with skippingBlockIndex := some idx }, l, [])
    else
      match btype with
      | BlockType.thinkingB =>
        (p, { l with nativeThinkingBlockActive := true },
          [OutEvent.outBlockStart (Int.ofNat idx) BlockType.thinkingB false])
      | BlockType.toolUseB =>
        let l' := { l with currentToolUse := some ⟨name, [], idx⟩ }
        if internal name then (p, l', [])
        else (p, l', [OutEvent.outBlockStart (Int.ofNat idx) BlockType.toolUseB false])
      | BlockType.textB =>
        if thinkingEnabled then (p, l, [])
        else (p, l, [OutEvent.outBlockStart (Int.ofNat idx) BlockType.textB false])
      | b => (p, l, [OutEvent.outBlockStart (Int.ofNat idx) b false])
  | UpEvent.blockDeltaEv idx d =>
    if p.skippingBlockIndex = some idx then (p, l, [])
    else
      match d, l.currentToolUse with
      | UpDelta.inputJsonDelta s, some tu =>
        let l' := { l with currentToolUse := some { tu with input := tu.input ++ s } }
        if internal tu.name then (p, l', [])
        else (p, l', [OutEvent.outBlockDelta (Int.ofNat idx) (UpDelta.inputJsonDelta s)])
      | UpDelta.textDelta s, _ =>
        if thinkingEnabled then
          let pr := processChunk l.reasoningParser s
          emitSegments p { l with reasoningParser := pr.2 } pr.1
        else (p, l, [OutEvent.outBlockDelta (Int.ofNat idx) (UpDelta.textDelta s)])
      | UpDelta.thinkingDelta s, _ =>
        (p, l, [OutEvent.outBlockDelta (Int.ofNat idx) (UpDelta.thinkingDelta s)])
      | UpDelta.otherDelta, _ => (p, l, [OutEvent.outBlockDelta (Int.ofNat idx) UpDelta.otherDelta])
      | UpDelta.inputJsonDelta s, none =>
        (p, l, [OutEvent.outBlockDelta (Int.ofNat idx) (UpDelta.inputJsonDelta s)])
  | UpEvent.blockStopEv idx =>
    if p.skippingBlockIndex = some idx then
      ({ p with skippingBlockIndex := none, serverToolInProgress := false }, l, [])
    else
      match l.currentToolUse with
      | some tu =>
        let l' := { l with currentToolUse := none }
        if tu.input.isEmpty || jsonOk tu.input then
          if internal tu.name then (p, l', [])
          else (p, l', [OutEvent.outBlockStop (Int.ofNat idx)])
        else (p, l', [])
      | none =>
        if l.nativeThinkingBlockActive then
          (p, { l with nativeThinkingBlockActive := false },
            [OutEvent.outBlockStop (Int.ofNat idx)])
        else if thinkingEnabled then
          let segs := flushSeg l.reasoningParser
          let r := emitSegments p
            { l with reasoningParser := ⟨[], l.reasoningParser.inReasoning⟩ } segs
          let r2 := closeParsedThinkingBlock r.1 r.2.1
          let es3 : List OutEvent :=
            if r2.2.1.textBlockStarted then [OutEvent.outBlockStop r2.2.1.textBlockIndex] else []
          (r2.1, r2.2.1, r.2.2 ++ r2.2.2 ++ es3)
        else (p, l, [OutEvent.outBlockStop (Int.ofNat idx)])
  | UpEvent.msgDeltaEv stop =>
    match stop with
    | some s => (p, { l with stopReason := s }, [])
    | none => (p, l, [])
  | UpEvent.msgStopEv => (p, l, [])
  | UpEvent.unknownEv => (p, l, [OutEvent.outUnknown])

/-- The SSE read loop over one upstream stream. -/
def runEvents (internal : List Char → Bool) (jsonOk : List Char → Bool)
    (thinkingEnabled : Bool) (p : StreamPersist) (l : StreamLocal) :
    List UpEvent → StepOut
  | [] => (p, l, [])
  | e :: es =>
    let r := stepEvent internal jsonOk thinkingEnabled p l e
    let r2 := runEvents internal jsonOk thinkingEnabled r.1 r.2.1 es
    (r2.1, r2.2.1, r.2.2 ++ r2.2.2)

/-- One logical streamed response: each recursive continuation of
    `streamFromAnthropic` opens a fresh upstream stream with fresh local
    variables but reuses the same persistent `streamState`. -/
def runCalls (internal : List Char → Bool) (jsonOk : List Char → Bool)
    (thinkingEnabled : Bool) : StreamPersist → List (List UpEvent) →
    StreamPersist × List OutEvent
  | p, [] => (p, [])
  | p, evs :: rest =>
    let r := runEvents internal jsonOk thinkingEnabled p initStreamLocal evs
    let r2 := runCalls internal jsonOk thinkingEnabled r.1 rest
    (r2.1, r.2.2 ++ r2.2)

/-- Indices of all emitted `content_block_start` events. -/
def allStartIdxs (out : List OutEvent) : List Int :=
  out.filterMap (fun e =>
    match e with
    | OutEvent.outBlockStart i _ _ => some i
    | _ => none)

/-- Indices of the engine-assigned (synthesized) `content_block_start`
    events only. -/
def synthIdxs (out : List OutEvent) : List Int :=
  out.filterMap (fun e =>
    match e with
    | OutEvent.outBlockStart i _ true => some i
    | _ => none)

end GlmProxy
namespace GlmProxy

/-- Multiset of currently-open blocks after a prefix of the outbound event
    sequence: a start pushes `(index, type)`, a stop removes the entries
    with that index. -/
def openBlocks (out : List OutEvent) : List (Int × BlockType) :=
  out.foldl (fun acc e =>
    match e with
    | OutEvent.outBlockStart i b _ => acc ++ [(i, b)]
    | OutEvent.outBlockStop i => acc.filter (fun x => !(x.1 == i))
    | _ => acc) []

def twoKindsOpen (opened : List (Int × BlockType)) : Bool :=
  (opened.any (fun x => x.2 == BlockType.textB)) &&
    (opened.any (fun x => x.2 == BlockType.thinkingB))

/-- Claim C4's invariant: at no point of the outbound sequence are a text
    block and a thinking block simultaneously open. -/
def singleOpenInv (out : List OutEvent) : Prop :=
  ∀ n, twoKindsOpen (openBlocks (out.take n)) = false

/-- Claim C3 is false as stated: with prompt-injected thinking enabled, a
    native thinking block is passed through with the upstream index 0, and
    the next synthesized text block also receives engine index 0 - the
    emitted start indices are `[0, 0]`: not strictly increasing, and index 0
    is reused. -/
theorem block_index_cex :
    allStartIdxs (runCalls (fun _ => false) (fun _ => true) true initStreamPersist
      [[UpEvent.blockStartEv 0 BlockType.thinkingB [],
        UpEvent.blockDeltaEv 0 (UpDelta.thinkingDelta "t".toList),
        UpEvent.blockStopEv 0,
        UpEvent.blockStartEv 1 BlockType.textB [],
        UpEvent.blockDeltaEv 1 (UpDelta.textDelta "hi".toList)]]).2 = [0, 0] ∧
    ¬ List.Chain' (· < ·)
      (allStartIdxs (runCalls (fun _ => false) (fun _ => true) true initStreamPersist
        [[UpEvent.blockStartEv 0 BlockType.thinkingB [],
          UpEvent.blockDeltaEv 0 (UpDelta.thinkingDelta "t".toList),
          UpEvent.blockStopEv 0,
          UpEvent.blockStartEv 1 BlockType.textB [],
          UpEvent.blockDeltaEv 1 (UpDelta.textDelta "hi".toList)]]).2) ∧
    ¬ List.Pairwise (· ≠ ·)
      (allStartIdxs (runCalls (fun _ => false) (fun _ => true) true initStreamPersist
        [[UpEvent.blockStartEv 0 BlockType.thinkingB [],
          UpEvent.blockDeltaEv 0 (UpDelta.thinkingDelta "t".toList),
          UpEvent.blockStopEv 0,
          UpEvent.blockStartEv 1 BlockType.textB [],
          UpEvent.blockDeltaEv 1 (UpDelta.textDelta "hi".toList)]]).2) := by
  have h1 : allStartIdxs (runCalls (fun _ => false) (fun _ => true) true initStreamPersist
      [[UpEvent.blockStartEv 0 BlockType.thinkingB [],
        UpEvent.blockDeltaEv 0 (UpDelta.thinkingDelta "t".toList),
        UpEvent.blockStopEv 0,
        UpEvent.blockStartEv 1 BlockType.textB [],
        UpEvent.blockDeltaEv 1 (UpDelta.textDelta "hi".toList)]]).2 = [0, 0] := by decide
  refine ⟨h1, ?_, ?_⟩
  · rw [h1]
    intro hch
    simp [List.chain'_cons] at hch
  · rw [h1]
    intro hpw
    simp at hpw

/-- Claim C4 is false as stated: one upstream text delta containing
    `"a<reasoning_content>b"` opens a text block and then opens the parsed
    thinking block WITHOUT closing the text block - both are open at once. -/
theorem single_open_cex :
    ¬ singleOpenInv (runCalls (fun _ => false) (fun _ => true) true initStreamPersist
      [[UpEvent.blockStartEv 0 BlockType.textB [],
        UpEvent.blockDeltaEv 0 (UpDelta.textDelta "a<reasoning_content>b".toList)]]).2 :=
  fun h => absurd (h 5) (by decide)

end GlmProxy
namespace GlmProxy

theorem synthIdxs_append (a b : List OutEvent) :
    synthIdxs (a ++ b) = synthIdxs a ++ synthIdxs b := by
  simp [synthIdxs]

/-- The engine-assigned start indices of an emitted chunk form exactly the
    counter range consumed while emitting it. -/
def SynthSpec (c0 c1 : Nat) (out : List OutEvent) : Prop :=
  c0 ≤ c1 ∧ synthIdxs out = (List.range' c0 (c1 - c0)).map Int.ofNat

theorem SynthSpec.of_empty (c : Nat) {out : List OutEvent} (h : synthIdxs out = []) :
    SynthSpec c c out := ⟨le_refl _, by simp [h]⟩

theorem SynthSpec.comp {c0 c1 c2 : Nat} {o1 o2 : List OutEvent}
    (h1 : SynthSpec c0 c1 o1) (h2 : SynthSpec c1 c2 o2) : SynthSpec c0 c2 (o1 ++ o2) := by
  obtain ⟨hle1, hs1⟩ := h1
  obtain ⟨hle2, hs2⟩ := h2
  refine ⟨le_trans hle1 hle2, ?_⟩
  rw [synthIdxs_append, hs1, hs2, ← List.map_append]
  have e1 : List.range' c1 (c2 - c1) = List.range' (c0 + (c1 - c0)) (c2 - c1) := by
    rw [Nat.add_sub_cancel' hle1]
  rw [e1, List.range'_append_1]
  have e2 : (c2 - c1) + (c1 - c0) = c2 - c0 := by omega
  rw [e2]

theorem synthIdxs_cons_start_true (i : Int) (b : BlockType) (rest : List OutEvent) :
    synthIdxs (OutEvent.outBlockStart i b true :: rest) = i :: synthIdxs rest := by
  simp [synthIdxs]

theorem SynthSpec.single {c0 : Nat} {b : BlockType} {es tail : List OutEvent}
    (h : synthIdxs es = []) (ht : synthIdxs tail = []) :
    SynthSpec c0 (c0 + 1) (es ++ (OutEvent.outBlockStart (Int.ofNat c0) b true :: tail)) := by
  refine ⟨by omega, ?_⟩
  rw [synthIdxs_append, h, synthIdxs_cons_start_true, ht]
  simp

theorem ensureMessageStart_curr (p : StreamPersist) (l : StreamLocal) :
    (ensureMessageStart p l).1.currentBlockIndex = p.currentBlockIndex := by
  rw [ensureMessageStart]
  split <;> rfl

theorem ensureMessageStart_synth (p : StreamPersist) (l : StreamLocal) :
    synthIdxs (ensureMessageStart p l).2.2 = [] := by
  rw [ensureMessageStart]
  split <;> rfl

theorem startTextBlock_spec (p : StreamPersist) (l : StreamLocal) :
    SynthSpec p.currentBlockIndex (startTextBlock p l).1.currentBlockIndex
      (startTextBlock p l).2.2 := by
  rw [startTextBlock]
  split
  · exact SynthSpec.of_empty _ rfl
  · dsimp only
    rw [ensureMessageStart_curr]
    have h := @SynthSpec.single p.currentBlockIndex BlockType.textB
      (ensureMessageStart p l).2.2 [] (ensureMessageStart_synth p l) rfl
    simpa using h

theorem startParsedThinkingBlock_spec (p : StreamPersist) (l : StreamLocal) :
    SynthSpec p.currentBlockIndex (startParsedThinkingBlock p l).1.currentBlockIndex
      (startParsedThinkingBlock p l).2.2 := by
  rw [startParsedThinkingBlock]
  split
  · exact SynthSpec.of_empty _ rfl
  · dsimp only
    rw [ensureMessageStart_curr]
    have h := @SynthSpec.single p.currentBlockIndex BlockType.thinkingB
      (ensureMessageStart p l).2.2 [] (ensureMessageStart_synth p l) rfl
    simpa using h

theorem closeParsedThinkingBlock_spec (p : StreamPersist) (l : StreamLocal) :
    SynthSpec p.currentBlockIndex (closeParsedThinkingBlock p l).1.currentBlockIndex
      (closeParsedThinkingBlock p l).2.2 := by
  rw [closeParsedThinkingBlock]
  split <;> exact SynthSpec.of_empty _ rfl

theorem emitThinkingDelta_spec (p : StreamPersist) (l : StreamLocal) (content : List Char) :
    SynthSpec p.currentBlockIndex (emitThinkingDelta p l content).1.currentBlockIndex
      (emitThinkingDelta p l content).2.2 := by
  rw [emitThinkingDelta]
  exact SynthSpec.comp (startParsedThinkingBlock_spec p l) (SynthSpec.of_empty _ rfl)

theorem emitTextDelta_spec (p : StreamPersist) (l : StreamLocal) (content : List Char) :
    SynthSpec p.currentBlockIndex (emitTextDelta p l content).1.currentBlockIndex
      (emitTextDelta p l content).2.2 := by
  rw [emitTextDelta]
  dsimp only
  rw [List.append_assoc]
  exact SynthSpec.comp (closeParsedThinkingBlock_spec p l)
    (SynthSpec.comp (startTextBlock_spec _ _) (SynthSpec.of_empty _ rfl))

theorem emitSegments_spec : ∀ (segs : List Segment) (p : StreamPersist) (l : StreamLocal),
    SynthSpec p.currentBlockIndex (emitSegments p l segs).1.currentBlockIndex
      (emitSegments p l segs).2.2 := by
  intro segs
  induction segs with
  | nil => intro p l; exact SynthSpec.of_empty _ rfl
  | cons s rest ih =>
    intro p l
    rw [emitSegments]
    dsimp only
    by_cases hc : s.content.isEmpty
    · rw [if_pos hc]
      exact SynthSpec.comp (SynthSpec.of_empty _ rfl) (ih p l)
    · rw [if_neg hc]
      cases hty : s.type with
      | thinking =>
        exact SynthSpec.comp (emitThinkingDelta_spec p l s.content) (ih _ _)
      | text =>
        exact SynthSpec.comp (emitTextDelta_spec p l s.content) (ih _ _)

theorem handleReasoning_spec (p : StreamPersist) (l : StreamLocal) (rc : List Char) :
    SynthSpec p.currentBlockIndex (handleReasoning p l rc).1.currentBlockIndex
      (handleReasoning p l rc).2.2 := by
  rw [handleReasoning]
  split
  · exact SynthSpec.of_empty _ rfl
  · dsimp only
    rw [ensureMessageStart_curr]
    exact SynthSpec.single (ensureMessageStart_synth p l) rfl

theorem handleContent_spec (p : StreamPersist) (l : StreamLocal) (c : List Char) :
    SynthSpec p.currentBlockIndex (handleContent p l c).1.currentBlockIndex
      (handleContent p l c).2.2 := by
  rw [handleContent]
  have hes1 : synthIdxs (if l.thinkingBlockStarted && !l.textBlockStarted then
      [OutEvent.outBlockStop l.thinkingBlockIndex] else []) = [] := by
    split <;> rfl
  split
  · dsimp only
    apply SynthSpec.of_empty
    rw [synthIdxs_append, hes1]
    rfl
  · dsimp only
    rw [ensureMessageStart_curr]
    refine SynthSpec.single ?_ (by rfl)
    rw [synthIdxs_append, hes1, ensureMessageStart_synth]
    rfl

theorem handleFinish_spec (p : StreamPersist) (l : StreamLocal) (fr : List Char) :
    SynthSpec p.currentBlockIndex (handleFinish p l fr).1.currentBlockIndex
      (handleFinish p l fr).2.2 := by
  rw [handleFinish]
  dsimp only
  split
  · exact SynthSpec.of_empty _ rfl
  · split <;> exact SynthSpec.of_empty _ rfl

theorem handleOptField_spec {f : StreamPersist → StreamLocal → List Char → StepOut}
    (hf : ∀ p l s, SynthSpec p.currentBlockIndex (f p l s).1.currentBlockIndex (f p l s).2.2)
    (p : StreamPersist) (l : StreamLocal) (o : Option (List Char)) :
    SynthSpec p.currentBlockIndex (handleOptField f p l o).1.currentBlockIndex
      (handleOptField f p l o).2.2 := by
  cases o with
  | none => exact SynthSpec.of_empty _ rfl
  | some s =>
    rw [handleOptField]
    split
    · exact SynthSpec.of_empty _ rfl
    · exact hf p l s

theorem stepEvent_spec (internal jsonOk : List Char → Bool) (thinkingEnabled : Bool)
    (p : StreamPersist) (l : StreamLocal) (e : UpEvent) :
    SynthSpec p.currentBlockIndex
      (stepEvent internal jsonOk thinkingEnabled p l e).1.currentBlockIndex
      (stepEvent internal jsonOk thinkingEnabled p l e).2.2 := by
  cases e with
  | choicesDelta rc c fr =>
    rw [stepEvent]
    dsimp only
    exact SynthSpec.comp
      (SynthSpec.comp (handleOptField_spec handleReasoning_spec p l rc)
        (handleOptField_spec handleContent_spec _ _ c))
      (handleOptField_spec handleFinish_spec _ _ fr)
  | msgStartEv =>
    rw [stepEvent]
    split <;> exact SynthSpec.of_empty _ rfl
  | blockStartEv idx btype name =>
    cases btype <;>
      (rw [stepEvent] <;> try (intro h; cases h)
       simp only [serverToolType, validContentType, Bool.not_true, Bool.not_false,
         Bool.false_eq_true, Bool.true_eq_false, if_true, if_false]
       first
         | exact SynthSpec.of_empty _ rfl
         | (split <;> exact SynthSpec.of_empty _ rfl))
  | blockDeltaEv idx d =>
    rw [stepEvent.eq_def]
    dsimp only
    split
    · exact SynthSpec.of_empty _ rfl
    · obtain ⟨b1, i1, b2, i2, b3, b4, ctu, rp, sr⟩ := l
      cases d <;> cases ctu <;> dsimp only <;>
        first
          | exact SynthSpec.of_empty _ rfl
          | (split
             · exact emitSegments_spec _ _ _
             · exact SynthSpec.of_empty _ rfl)
          | (split <;> exact SynthSpec.of_empty _ rfl)
  | blockStopEv idx =>
    rw [stepEvent.eq_def]
    dsimp only
    split
    · exact SynthSpec.of_empty _ rfl
    · obtain ⟨b1, i1, b2, i2, b3, b4, ctu, rp, sr⟩ := l
      cases ctu with
      | some tu =>
        dsimp only
        split
        · split <;> exact SynthSpec.of_empty _ rfl
        · exact SynthSpec.of_empty _ rfl
      | none =>
        dsimp only
        split
        · exact SynthSpec.of_empty _ rfl
        · split
          · refine SynthSpec.comp
              (SynthSpec.comp (emitSegments_spec _ _ _) (closeParsedThinkingBlock_spec _ _))
              (SynthSpec.of_empty _ ?_)
            split <;> rfl
          · exact SynthSpec.of_empty _ rfl
  | msgDeltaEv stop =>
    rw [stepEvent.eq_def]
    dsimp only
    cases stop <;> exact SynthSpec.of_empty _ rfl
  | msgStopEv => exact SynthSpec.of_empty _ rfl
  | unknownEv => exact SynthSpec.of_empty _ rfl

theorem runEvents_spec (internal jsonOk : List Char → Bool) (thinkingEnabled : Bool) :
    ∀ (events : List UpEvent) (p : StreamPersist) (l : StreamLocal),
    SynthSpec p.currentBlockIndex
      (runEvents internal jsonOk thinkingEnabled p l events).1.currentBlockIndex
      (runEvents internal jsonOk thinkingEnabled p l events).2.2 := by
  intro events
  induction events with
  | nil => intro p l; exact SynthSpec.of_empty _ rfl
  | cons e es ih =>
    intro p l
    rw [runEvents]
    exact SynthSpec.comp (stepEvent_spec internal jsonOk thinkingEnabled p l e) (ih _ _)

theorem runCalls_spec (internal jsonOk : List Char → Bool) (thinkingEnabled : Bool) :
    ∀ (calls : List (List UpEvent)) (p : StreamPersist),
    SynthSpec p.currentBlockIndex
      (runCalls internal jsonOk thinkingEnabled p calls).1.currentBlockIndex
      (runCalls internal jsonOk thinkingEnabled p calls).2 := by
  intro calls
  induction calls with
  | nil => intro p; exact SynthSpec.of_empty _ rfl
  | cons evs rest ih =>
    intro p
    rw [runCalls]
    exact SynthSpec.comp (runEvents_spec internal jsonOk thinkingEnabled evs p initStreamLocal)
      (ih _)

/-- Claim C3 (amended): over one logical streamed response, including every
    recursive continuation reusing the same `StreamState`, the indices the
    engine itself assigns to synthesized `content_block_start` events are
    exactly the consecutive integers 0, 1, 2, ... - strictly increasing,
    starting at 0, never reused.  (Passthrough events carry the upstream's
    own indices, which can collide with these - see the counterexample - and
    start/stop pairing is not guaranteed either.) -/
theorem block_index_monotonic (internal jsonOk : List Char → Bool) (thinkingEnabled : Bool)
    (calls : List (List UpEvent)) :
    synthIdxs (runCalls internal jsonOk thinkingEnabled initStreamPersist calls).2 =
      (List.range' 0
        (runCalls internal jsonOk thinkingEnabled initStreamPersist calls).1.currentBlockIndex).map
        Int.ofNat ∧
    List.Pairwise (· < ·)
      (synthIdxs (runCalls internal jsonOk thinkingEnabled initStreamPersist calls).2) := by
  have h := runCalls_spec internal jsonOk thinkingEnabled calls initStreamPersist
  obtain ⟨hle, hs⟩ := h
  constructor
  · simpa using hs
  · rw [hs]
    refine List.Pairwise.map _ ?_ (List.pairwise_lt_range' _ _)
    intro a b hab
    exact Int.ofNat_lt.mpr hab

end GlmProxy
namespace GlmProxy

theorem ensureMessageStart_local (p : StreamPersist) (l : StreamLocal) :
    (ensureMessageStart p l).2.1 = l := by
  rw [ensureMessageStart]
  split <;> rfl

theorem startTextBlock_parsed (p : StreamPersist) (l : StreamLocal) :
    (startTextBlock p l).2.1.parsedThinkingBlockStarted = l.parsedThinkingBlockStarted := by
  rw [startTextBlock]
  split
  · rfl
  · dsimp only
    rw [ensureMessageStart_local]

/-- Claim C4 (amended): the single-open-block rule holds in one direction
    only.  Emitting text content while a parsed thinking block is open first
    emits that block's `content_block_stop` and leaves it closed; emitting
    thinking content, however, never closes an open text block (the
    counterexample exhibits both open at once). -/
theorem text_closes_parsed_thinking :
    (∀ (p : StreamPersist) (l : StreamLocal) (content : List Char),
      l.parsedThinkingBlockStarted = true →
      (∃ rest, (emitTextDelta p l content).2.2 =
        OutEvent.outBlockStop l.thinkingBlockIndex :: rest) ∧
      (emitTextDelta p l content).2.1.parsedThinkingBlockStarted = false) ∧
    (∀ (p : StreamPersist) (l : StreamLocal) (content : List Char),
      (emitThinkingDelta p l content).2.1.textBlockStarted = l.textBlockStarted) := by
  constructor
  · intro p l content h
    rw [emitTextDelta, closeParsedThinkingBlock]
    rw [if_pos h]
    dsimp only
    constructor
    · exact ⟨_, rfl⟩
    · rw [startTextBlock_parsed]
  · intro p l content
    rw [emitThinkingDelta, startParsedThinkingBlock]
    split
    · rfl
    · dsimp only
      rw [ensureMessageStart_local]

theorem text_closes_parsed_thinking_witness :
    (∃ rest, (emitTextDelta initStreamPersist
        { initStreamLocal with parsedThinkingBlockStarted := true } "x".toList).2.2 =
      OutEvent.outBlockStop
        ({ initStreamLocal with
            parsedThinkingBlockStarted := true } : StreamLocal).thinkingBlockIndex :: rest) ∧
    (emitTextDelta initStreamPersist
        { initStreamLocal with parsedThinkingBlockStarted := true }
        "x".toList).2.1.parsedThinkingBlockStarted = false :=
  text_closes_parsed_thinking.1 initStreamPersist
    { initStreamLocal with parsedThinkingBlockStarted := true } "x".toList rfl

end GlmProxy
